import Mathlib

/-!
Verification development for `template_comparison/generate_reaction_templates.py`.

Strings are modelled as `List Char` (`Str`).  The Python string operations the
script relies on (`str.split`, `str.join`, `str.replace`, `sorted`, and the
regular expressions over atom-map labels `:[0-9]+]`) are embedded as executable
Lean functions.  Recursions that consume a non-structural suffix of the input
use an explicit fuel argument equal to the input length, so that every
definition reduces by `rfl`/`decide`; unfolding equations are proved once and
used everywhere.
-/

abbrev Str := List Char

/-- Python string comparison (`<=` on `str`): lexicographic by code point. -/
def lexLe : Str → Str → Bool
  | [], _ => true
  | _ :: _, [] => false
  | a :: as, b :: bs => if a < b then true else if b < a then false else lexLe as bs

/-- Leftmost occurrence of `sep` in a string: the part before it and the part
after it (`none` when `sep` does not occur).  Mirrors the scanning done by
Python's `str.split`. -/
def firstSplit (sep : Str) : Str → Option (Str × Str)
  | [] => none
  | c :: cs =>
    if sep.isPrefixOf (c :: cs) then some ([], (c :: cs).drop sep.length)
    else
      match firstSplit sep cs with
      | none => none
      | some (pre, post) => some (c :: pre, post)

def splitOnAux (sep : Str) : Nat → Str → List Str
  | 0, s => [s]
  | fuel + 1, s =>
    match firstSplit sep s with
    | none => [s]
    | some (pre, post) => pre :: splitOnAux sep fuel post

/-- Python `s.split(sep)` for a non-empty separator. -/
def splitOnStr (sep s : Str) : List Str := splitOnAux sep s.length s

/-- Python `sep.join(pieces)`. -/
def joinStr (sep : Str) : List Str → Str
  | [] => []
  | [x] => x
  | x :: y :: xs => x ++ sep ++ joinStr sep (y :: xs)

/-- Whether `cs` starts with the body of an atom-map label: one or more digits
followed by `]` — the continuation of a regex match of `\:[0-9]+\]` after the
`:` has been read.  (`[0-9]+` is greedy and `]` cannot be a digit, so regex
backtracking never helps: match iff the maximal digit run is non-empty and is
followed by `]`.) -/
abbrev LabelHead (cs : Str) : Prop :=
  cs.takeWhile Char.isDigit ≠ [] ∧ (cs.dropWhile Char.isDigit).head? = some ']'

/-- The digit group of the label match starting after a `:`. -/
def labelDigits (cs : Str) : Str := cs.takeWhile Char.isDigit

/-- The remainder of the string after the matched `digits ]`. -/
def labelRest (cs : Str) : Str := (cs.dropWhile Char.isDigit).tail

def stripAux : Nat → Str → Str
  | 0, s => s
  | _ + 1, [] => []
  | f + 1, c :: cs =>
    if c = ':' ∧ LabelHead cs then ']' :: stripAux f (labelRest cs)
    else c :: stripAux f cs

/-- Embedding of `re.sub('\:[0-9]+\]', ']', s)` (source line 405): delete every atom-map
label, keeping the closing bracket. -/
def stripLabels (s : Str) : Str := stripAux s.length s

def findLabelsAux : Nat → Str → List Str
  | 0, _ => []
  | _ + 1, [] => []
  | f + 1, c :: cs =>
    if c = ':' ∧ LabelHead cs then labelDigits cs :: findLabelsAux f (labelRest cs)
    else findLabelsAux f cs

/-- Embedding of `re.findall('\:([0-9]+)\]', s)` (source line 436): the digit groups of all
label matches, left to right. -/
def findLabels (s : Str) : List Str := findLabelsAux s.length s

def rebuildAux : Nat → Str → List Str → Str
  | 0, s, _ => s
  | _ + 1, [], _ => []
  | f + 1, c :: cs, repl =>
    if c = ':' ∧ LabelHead cs then
      ':' :: (repl.headD (labelDigits cs) ++ ']' :: rebuildAux f (labelRest cs) repl.tail)
    else c :: rebuildAux f cs repl

/-- Embedding of the stateful `re.sub` of source lines 449-451
(replacement `':' + replacements.pop(0) + ']'`): replace the i-th label occurrence by the i-th entry of
`repl`.  At the only call site `repl` has exactly one entry per occurrence;
were it exhausted the source would raise `IndexError`, and we keep the
original digits in that dead branch. -/
def rebuildLabels (s : Str) (repl : List Str) : Str := rebuildAux s.length s repl

def relabelAux (g : Str → Str) : Nat → Str → Str
  | 0, s => s
  | _ + 1, [] => []
  | f + 1, c :: cs =>
    if c = ':' ∧ LabelHead cs then
      ':' :: (g (labelDigits cs) ++ ']' :: relabelAux g f (labelRest cs))
    else c :: relabelAux g f cs

/-- Replace every atom-map label `:d]` by `:g d]`.  This is not a function of
the source; it formalises the spec's "permuted-atom-map-number copy" of a
template (an injective renumbering of the labels). -/
def relabelStr (g : Str → Str) (s : Str) : Str := relabelAux g s.length s

/-- The decimal digit character for `d < 10`. -/
def digitChar (d : Nat) : Char :=
  if d = 0 then '0' else if d = 1 then '1' else if d = 2 then '2'
  else if d = 3 then '3' else if d = 4 then '4' else if d = 5 then '5'
  else if d = 6 then '6' else if d = 7 then '7' else if d = 8 then '8' else '9'

def natDigitsAux : Nat → Nat → Str
  | 0, _ => []
  | f + 1, n =>
    if n < 10 then [digitChar n]
    else natDigitsAux f (n / 10) ++ [digitChar (n % 10)]

/-- Python `str(n)` for a natural number: decimal digits. -/
def natDigits (n : Nat) : Str := natDigitsAux (n + 1) n

/-- Decimal value of a digit string (used only to invert `natDigits`). -/
def digitsToNat (s : Str) : Nat := s.foldl (fun a c => 10 * a + (c.toNat - 48)) 0

/-- Every character is a decimal digit. -/
def AllDigits (s : Str) : Prop := ∀ c ∈ s, c.isDigit

instance : DecidablePred AllDigits := fun s => by unfold AllDigits; infer_instance

/-- A well-behaved relabeling: it maps nonempty all-digit label strings to
nonempty all-digit label strings. -/
def GoodG (g : Str → Str) : Prop :=
  ∀ ds : Str, ds ≠ [] → AllDigits ds → g ds ≠ [] ∧ AllDigits (g ds)

/-- A character that cannot take part in an atom-map-label match. -/
def SafeChar (c : Char) : Prop := c ≠ ':' ∧ c ≠ ']' ∧ c.isDigit = false

/-- A separator made of safe characters; all separators the script splits or
joins on (`.`, `).(`, `>>`) are safe. -/
def SepSafe (sep : Str) : Prop := sep ≠ [] ∧ ∀ c ∈ sep, SafeChar c

/-- Association-list lookup, embedding the Python dict `replacement_dict`. -/
def lookupA : List (Str × Str) → Str → Option Str
  | [], _ => none
  | (k, v) :: d, l => if l = k then some v else lookupA d l

/-- Embedding of source lines 439-446: walk `all_labels` in order; a label
already in the dict reuses its assigned number, a fresh label is assigned
`str(counter)` and the counter is incremented. -/
def denseReplAux : List Str → List (Str × Str) → Nat → List Str
  | [], _, _ => []
  | l :: ls, dict, counter =>
    match lookupA dict l with
    | some r => r :: denseReplAux ls dict counter
    | none =>
      natDigits counter :: denseReplAux ls ((l, natDigits counter) :: dict) (counter + 1)

/-- The full replacement list for a label sequence: dense renumbering from 1
in order of first appearance. -/
def denseRepl (ls : List Str) : List Str := denseReplAux ls [] 1

/-- Embedding of `reassign_atom_mapping` (source lines 431-453). -/
def reassign_atom_mapping (transform : Str) : Str :=
  let all_labels := findLabels transform
  let replacements := denseRepl all_labels
  rebuildLabels transform replacements

/-- The distinct elements of a list in order of first appearance (used only to
state properties of `denseRepl`). -/
def firstOccsAux (seen : List Str) : List Str → List Str
  | [] => []
  | l :: ls =>
    if l ∈ seen then firstOccsAux seen ls else l :: firstOccsAux (l :: seen) ls

def firstOccs (ls : List Str) : List Str := firstOccsAux [] ls

/-- Index of the first occurrence of `l` (used only in statements). -/
def idxOfStr (l : Str) : List Str → Nat
  | [] => 0
  | x :: xs => if l = x then 0 else idxOfStr l xs + 1

/-- The molecule separator `).(` of source lines 408-409 and 427. -/
def molSep : Str := [')', '.', '(']

/-- The intramolecular fragment separator `.`. -/
def dotSep : Str := ['.']

/-- The reaction arrow `>>`. -/
def gtgtSep : Str := ['>', '>']

/-- Python slice `template[1:-1]` (source lines 408-409). -/
def dropEnds (s : Str) : Str := (s.drop 1).dropLast

/-- Rebuild `'(' + body + ')'` (source line 427). -/
def wrapParens (s : Str) : Str := '(' :: (s ++ [')'])

/-- Key order on (sort key, payload) pairs: Python string `<=` on the key. -/
def pairLe (a b : Str × Str) : Prop := lexLe a.1 b.1 = true

instance : DecidableRel pairLe := fun a b => by unfold pairLe; infer_instance

/-- Stable sort of (sort key, payload) pairs by the key.  This embeds the
source's stable `sortorder = [j[0] for j in sorted(enumerate(keys), key=
lambda x: x[1])]` followed by applying that order to both the bare and the
labelled list (source lines 417-421 and 424-427): stably sorting the
(bare, labelled) pairs by the bare text is the same computation, and
`List.insertionSort` is that stable sort (ties keep input order). -/
def insSortPairs : List (Str × Str) → List (Str × Str) :=
  List.insertionSort pairLe

/-- Embedding of `canonicalize_template` (source lines 399-429).  The source
walks index `i` over both `template_nolabels_mols` and `template_mols` in
parallel; the zip below is that parallel walk (the two lists always have equal
length because stripping labels neither creates nor destroys any `).(`
occurrence, as proved in `splitOnStr_stripLabels`). -/
def canonicalize_template (template : Str) : Str :=
  let template_nolabels := stripLabels template
  let nolabels_mols := splitOnStr molSep (dropEnds template_nolabels)
  let mols := splitOnStr molSep (dropEnds template)
  let sortedMols := (nolabels_mols.zip mols).map (fun p =>
    let frag_pairs := (splitOnStr dotSep p.1).zip (splitOnStr dotSep p.2)
    let sorted := insSortPairs frag_pairs
    (joinStr dotSep (sorted.map Prod.fst), joinStr dotSep (sorted.map Prod.snd)))
  let sorted2 := insSortPairs sortedMols
  wrapParens (joinStr molSep (sorted2.map Prod.snd))

/-- Embedding of `canonicalize_transform` (source lines 455-462). -/
def canonicalize_transform (transform : Str) : Str :=
  reassign_atom_mapping
    (joinStr gtgtSep ((splitOnStr gtgtSep transform).map canonicalize_template))

def replaceAllAux (pat rep : Str) : Nat → Str → Str
  | 0, s => s
  | f + 1, s =>
    match firstSplit pat s with
    | none => s
    | some (pre, post) => pre ++ rep ++ replaceAllAux pat rep f post

/-- Python `s.replace(pat, rep)` for a non-empty pattern. -/
def replaceAllStr (pat rep s : Str) : Str := replaceAllAux pat rep s.length s

/-- Embedding of `convert_to_retro` (source lines 464-480).  The source
indexes `transform.split('>>')[1]`, which raises `IndexError` when there is no
`>>`; that cannot happen at the call site and is modelled by `getD`. -/
def convert_to_retro (transform : Str) : Str :=
  let reactants := (splitOnStr gtgtSep transform).headD []
  let products := (splitOnStr gtgtSep transform).getD 1 []
  let products2 := replaceAllStr molSep dotSep (dropEnds products)
  let reactants2 := replaceAllStr molSep dotSep (dropEnds reactants)
  joinStr gtgtSep [products2, reactants2]

/-- The intermolecular sort key the canonicalizer uses for one molecule text:
its label-stripped, intramolecularly sorted text (used to state the
no-tie hypothesis of the determinism property). -/
def molSortKey (m : Str) : Str :=
  joinStr dotSep
    ((insSortPairs ((splitOnStr dotSep (stripLabels m)).zip
      (splitOnStr dotSep m))).map Prod.fst)

/-- The intramolecularly sorted labelled text of one molecule, as computed by
the canonicalizer (companion of `molSortKey`). -/
def molCanon (m : Str) : Str :=
  joinStr dotSep
    ((insSortPairs ((splitOnStr dotSep (stripLabels m)).zip
      (splitOnStr dotSep m))).map Prod.snd)

/-- Python string `<=` as a relation (for sortedness hypotheses). -/
def strLe (a b : Str) : Prop := lexLe a b = true

instance : DecidableRel strLe := fun a b => by unfold strLe; infer_instance

/-- The attributes of an RDKit bond that `bond_to_label` reads: the endpoint
atoms' atomic numbers and optional `molAtomMapNumber` string properties, and
the bond's SMARTS text. -/
structure Bond where
  a1Num : Nat
  a1Map : Option Str
  a2Num : Nat
  a2Map : Option Str
  smarts : Str
deriving DecidableEq

/-- The attributes of an RDKit atom that the script reads (read-only molecular
graph view).  `neighbors` holds the `GetIdx` indices of the neighbouring
atoms; `molAtomMapNumber` is the optional atom-map property
(`HasProp` / `GetProp` / `ClearProp`). -/
structure Atom where
  smarts : Str
  atomicNum : Nat
  totalNumHs : Nat
  formalCharge : Int
  degree : Nat
  numRadicalElectrons : Nat
  isAromatic : Bool
  molAtomMapNumber : Option Str
  bonds : List Bond
  neighbors : List Nat
deriving DecidableEq

instance : Inhabited Atom := ⟨⟨[], 0, 0, 0, 0, 0, false, none, [], []⟩⟩

/-- A molecule is its atom list; `GetAtoms` enumerates it in index order. -/
abbrev Mol := List Atom

/-- `mol.GetAtomWithIdx(i)`; the source never passes an out-of-range index
(out-of-range is modelled by the default atom). -/
def getAtomWithIdx (mol : Mol) (i : Nat) : Atom := mol.getD i default

/-- Embedding of `bond_to_label` (source lines 31-44): endpoint signatures
(atomic number, then the map-number property if present) sorted
lexicographically around the bond SMARTS. -/
def bond_to_label (bond : Bond) : Str :=
  let a1_label := natDigits bond.a1Num ++ (match bond.a1Map with
    | some m => m
    | none => [])
  let a2_label := natDigits bond.a2Num ++ (match bond.a2Map with
    | some m => m
    | none => [])
  if lexLe a1_label a2_label then a1_label ++ bond.smarts ++ a2_label
  else a2_label ++ bond.smarts ++ a1_label

/-- Embedding of `get_tagged_atoms_from_mol` (source lines 57-66): the atoms
whose SMARTS contains `:`, with tags `smarts.split(':')[1][:-1]`. -/
def get_tagged_atoms_from_mol (mol : Mol) : List Atom × List Str :=
  mol.foldl (fun acc atom =>
    if ':' ∈ atom.smarts then
      (acc.1 ++ [atom],
       acc.2 ++ [((splitOnStr [':'] atom.smarts).getD 1 []).dropLast])
    else acc) ([], [])

/-- Embedding of `get_tagged_atoms_from_mols` (source lines 46-55). -/
def get_tagged_atoms_from_mols (mols : List Mol) : List Atom × List Str :=
  mols.foldl (fun acc mol =>
    let r := get_tagged_atoms_from_mol mol
    (acc.1 ++ r.1, acc.2 ++ r.2)) ([], [])

/-- Python's stable `sorted` on a list of strings. -/
def sortStrs (l : List Str) : List Str := List.insertionSort strLe l

/-- Embedding of `atoms_are_different` (source lines 68-91); `level` defaults
to 1 as in the source. -/
def atoms_are_different (atom1 atom2 : Atom) (level : Nat := 1) : Bool :=
  if atom1.smarts ≠ atom2.smarts then true
  else if atom1.atomicNum ≠ atom2.atomicNum then true
  else if atom1.totalNumHs ≠ atom2.totalNumHs then true
  else if atom1.formalCharge ≠ atom2.formalCharge then true
  else if atom1.degree ≠ atom2.degree then true
  else if atom1.numRadicalElectrons ≠ atom2.numRadicalElectrons then true
  else if 1 ≤ level ∧ sortStrs (atom1.bonds.map bond_to_label) ≠
      sortStrs (atom2.bonds.map bond_to_label) then true
  else false

/-- The inner loop of `get_changed_atoms` (source lines 116-128) for one
product atom: scan the reactant atoms in order; at the first reactant atom
with the same tag, not yet marked changed, that either differs or whose tag
appears more than once among product tags, return it (`break`); otherwise
keep scanning. -/
def find_changed (prod_atom : Atom) (prod_tag : Str) (prod_count : Nat)
    (changed_atom_tags : List Str) :
    List (Atom × Str) → Option (Atom × Str)
  | [] => none
  | (reac_atom, reac_tag) :: rest =>
    if reac_tag = prod_tag ∧ reac_tag ∉ changed_atom_tags ∧
        (atoms_are_different prod_atom reac_atom = true ∨ 1 < prod_count) then
      some (reac_atom, reac_tag)
    else find_changed prod_atom prod_tag prod_count changed_atom_tags rest

/-- The outer comparison loop of `get_changed_atoms` (source lines 114-128). -/
def changed_loop (reac_pairs : List (Atom × Str)) (prod_atom_tags : List Str) :
    List (Atom × Str) → List Atom × List Str → List Atom × List Str
  | [], acc => acc
  | (prod_atom, prod_tag) :: rest, acc =>
    match find_changed prod_atom prod_tag (prod_atom_tags.count prod_tag)
        acc.2 reac_pairs with
    | some r =>
      changed_loop reac_pairs prod_atom_tags rest (acc.1 ++ [r.1], acc.2 ++ [r.2])
    | none => changed_loop reac_pairs prod_atom_tags rest acc

/-- The leaving-group loop of `get_changed_atoms` (source lines 138-149).
Note that the source indexes `reac_atoms[j]` — the *global* reactant atom
list — with `j`, an index enumerating the *current molecule's* tag list
`new_atom_tags`. -/
def leaving_loop (reac_atoms : List Atom) (prod_atom_tags : List Str) :
    List Mol → List Atom × List Str → List Atom × List Str
  | [], acc => acc
  | mol :: mols, acc =>
    let r := get_tagged_atoms_from_mol mol
    let use_this_mol := r.2.any (fun tag => tag ∈ acc.2)
    let acc2 :=
      if use_this_mol then
        r.2.enum.foldl (fun a p =>
          if p.2 ∉ a.2 ∧ p.2 ∉ prod_atom_tags then
            (a.1 ++ [reac_atoms.getD p.1 default], a.2 ++ [p.2])
          else a) acc
      else acc
    leaving_loop reac_atoms prod_atom_tags mols acc2

/-- Embedding of `get_changed_atoms` (source lines 93-156).  The returned
`err` flag is always 0: the only assignment making it 1 is commented out. -/
def get_changed_atoms (reactants products : List Mol) :
    List Atom × List Str × Nat :=
  let prod := get_tagged_atoms_from_mols products
  let reac := get_tagged_atoms_from_mols reactants
  let c1 := changed_loop (reac.1.zip reac.2) prod.2 (prod.1.zip prod.2) ([], [])
  let c2 := leaving_loop reac.1 prod.2 reactants c1
  (c2.1, c2.2, 0)

/-- Embedding of `re.search('\:[0-9]+\]', s)`, returning the matched text. -/
def searchLabel : Str → Option Str
  | [] => none
  | c :: cs =>
    if c = ':' ∧ LabelHead cs then some (':' :: (labelDigits cs ++ [']']))
    else searchLabel cs

/-- Embedding of `re.search('([-+]+[1-9]?)', s)` (source line 241), returning
the matched text: the leftmost maximal run of `-`/`+` with an optional
trailing digit 1-9. -/
def searchCharges : Str → Option Str
  | [] => none
  | c :: cs =>
    if c = '-' ∨ c = '+' then
      let run := (c :: cs).takeWhile (fun x => decide (x = '-' ∨ x = '+'))
      let rest := (c :: cs).dropWhile (fun x => decide (x = '-' ∨ x = '+'))
      match rest.head? with
      | some d => if '1' ≤ d ∧ d ≤ '9' then some (run ++ [d]) else some run
      | none => some run
    else searchCharges cs

/-- Embedding of `convert_atom_to_wildcard` (source lines 209-258).  The
global `SUPER_GENERAL_TEMPLATES` flag is the explicit parameter `sg`.  In the
super-general branch for a mapped atom the source calls `label.group()`; were
the regex search unsuccessful (a `:` in the SMARTS without a complete label)
this would raise `AttributeError`; that corner cannot arise for
toolkit-produced atom SMARTS and is modelled by the empty string. -/
def convert_atom_to_wildcard (sg : Bool) (atom : Atom) : Str :=
  if sg = true ∧ ':' ∈ atom.smarts then
    match searchLabel atom.smarts with
    | some lbl => '[' :: '*' :: lbl
    | none => []
  else if sg = false ∧ atom.degree = 1 then atom.smarts
  else
    let symbol := ['[']
    let symbol := symbol ++
      (if atom.atomicNum ≠ 6 then '#' :: (natDigits atom.atomicNum ++ [';'])
       else if atom.isAromatic then ['c', ';'] else ['C', ';'])
    let symbol :=
      if sg = false ∧ atom.formalCharge ≠ 0 then
        match searchCharges atom.smarts with
        | some ch => symbol ++ ch ++ [';']
        | none => symbol
      else symbol
    let symbol := if symbol.getLast? = some ';' then symbol.dropLast else symbol
    match searchLabel atom.smarts with
    | some lbl => symbol ++ lbl
    | none => symbol ++ [']']

/-- The functional-group SMARTS catalog (source lines 367-381). -/
def group_templates : List Str :=
  ["C(=O)Cl".toList,
   "C(=O)[O;H,-]".toList,
   "[$(S-!@[#6])](=O)(=O)(Cl)".toList,
   "[$(B-!@[#6])](O)(O)".toList,
   "[$(N-!@[#6])](=!@C=!@O)".toList,
   "[N;H0;$(N-[#6]);D2]=[N;D2]=[N;D1]".toList,
   "O=C1N(Br)C(=O)CC1".toList,
   "C=O".toList,
   "ClS(Cl)=O".toList,
   "[Mg][Br,Cl]".toList,
   "[#6]S(=O)(=O)[O]".toList,
   "[O]S(=O)(=O)[O]".toList,
   "[N-]=[N+]=[C]".toList]

/-- Embedding of `get_special_groups` (source lines 358-388).  The
substructure search (`Chem.MolFromSmarts` followed by
`mol.GetSubstructMatches`) is the external collaborator `matcher`. -/
def get_special_groups (sg : Bool) (matcher : Str → Mol → List (List Nat))
    (mol : Mol) : List (List Nat) :=
  if sg then []
  else group_templates.foldl (fun groups template =>
    groups ++ matcher template mol) []

/-- Embedding of `expand_atoms_to_use_atom` (source lines 179-207). -/
def expand_atoms_to_use_atom (sg : Bool) (mol : Mol) (atoms_to_use : List Nat)
    (atom_idx : Nat) (groups : List (List Nat))
    (symbol_replacements : List (Nat × Str)) : List Nat × List (Nat × Str) :=
  if atom_idx ∈ atoms_to_use then (atoms_to_use, symbol_replacements)
  else
    let found := groups.foldl (fun acc group =>
      if atom_idx ∈ group then (acc.1 ++ group, true) else acc)
      (atoms_to_use, false)
    if found.2 then (found.1, symbol_replacements)
    else (atoms_to_use ++ [atom_idx],
      symbol_replacements ++
        [(atom_idx, convert_atom_to_wildcard sg (getAtomWithIdx mol atom_idx))])

/-- Embedding of `expand_atoms_to_use` (source lines 158-177): one hop of
expansion; the membership test is against the hop's starting set. -/
def expand_atoms_to_use (sg : Bool) (mol : Mol) (atoms_to_use : List Nat)
    (groups : List (List Nat)) (symbol_replacements : List (Nat × Str)) :
    List Nat × List (Nat × Str) :=
  mol.enum.foldl (fun acc p =>
    if p.1 ∈ atoms_to_use then
      p.2.neighbors.foldl (fun acc2 nb =>
        expand_atoms_to_use_atom sg mol acc2.1 nb groups acc2.2) acc
    else acc) (atoms_to_use, symbol_replacements)

/-- Opaque model of a Python exception object. -/
structure Err where
  msg : Str
deriving DecidableEq, Inhabited

/-- Clear all `molAtomMapNumber` properties (source line 338). -/
def clearMapNums (mol : Mol) : Mol :=
  mol.map (fun a => ⟨a.smarts, a.atomicNum, a.totalNumHs, a.formalCharge,
    a.degree, a.numRadicalElectrons, a.isAromatic, none, a.bonds, a.neighbors⟩)

/-- The custom seed-symbol adjustments of source lines 285-299: make `H0`
explicit when there are no hydrogens and `+0` explicit when the charge is
zero. -/
def fragment_seed_symbol (atom : Atom) : Str :=
  let symbol := atom.smarts
  let symbol := if atom.totalNumHs = 0 then
      (if ':' ∈ symbol then replaceAllStr [':'] ";H0:".toList symbol
       else replaceAllStr [']'] ";H0]".toList symbol)
    else symbol
  let symbol := if atom.formalCharge = 0 then
      (if ':' ∈ symbol then replaceAllStr [':'] ";+0:".toList symbol
       else replaceAllStr [']'] ";+0]".toList symbol)
    else symbol
  symbol

/-- The seed selection of source lines 278-302: tagged atoms whose tag is
changed, with a symbol replacement when the adjusted symbol differs. -/
def seed_atoms (changed_atom_tags : List Str) (mol : Mol) :
    List Nat × List (Nat × Str) :=
  mol.enum.foldl (fun acc p =>
    if ':' ∈ p.2.smarts ∧
        ((splitOnStr [':'] p.2.smarts).getD 1 []).dropLast ∈ changed_atom_tags then
      let symbol := fragment_seed_symbol p.2
      (acc.1 ++ [p.1],
       if symbol ≠ p.2.smarts then acc.2 ++ [(p.1, symbol)] else acc.2)
    else acc) ([], [])

/-- Embedding of `get_fragments_for_changed_atoms` (source lines 260-342).
`serialize` is the external `AllChem.MolFragmentToSmiles` (which may raise,
hence `Except`); `matcher` the substructure collaborator; `sg` the global
flag. -/
def fragments_loop (serialize : Mol → List Nat → List Str → Except Err Str)
    (matcher : Str → Mol → List (List Nat)) (sg : Bool)
    (changed_atom_tags : List Str) (radius : Nat) (category : Str)
    (expansion : List Str) : List Mol → Str → Except Err Str
  | [], fragments => .ok fragments.dropLast
  | mol :: mols, fragments =>
    let groups := if category = "reactants".toList
      then get_special_groups sg matcher mol else []
    let seeded := seed_atoms changed_atom_tags mol
    let expanded := (List.range radius).foldl (fun acc _ =>
      expand_atoms_to_use sg mol acc.1 groups acc.2) seeded
    let withExp :=
      if category = "products".toList ∧ expansion ≠ [] then
        mol.enum.foldl (fun acc p =>
          if ':' ∈ p.2.smarts then
            let label := ((splitOnStr [':'] p.2.smarts).getD 1 []).dropLast
            if label ∈ expansion ∧ label ∉ changed_atom_tags then
              (acc.1 ++ [p.1], acc.2 ++ [(p.1, convert_atom_to_wildcard sg p.2)])
            else acc
          else acc) expanded
      else expanded
    let withUnmapped :=
      if category = "products".toList then
        mol.enum.foldl (fun acc p =>
          if p.2.molAtomMapNumber.isNone then (acc.1 ++ [p.1], acc.2) else acc)
          withExp
      else withExp
    let symbols := withUnmapped.2.foldl (fun syms r => syms.set r.1 r.2)
      (mol.map Atom.smarts)
    if withUnmapped.1 = [] then
      fragments_loop serialize matcher sg changed_atom_tags radius category
        expansion mols fragments
    else
      match serialize (clearMapNums mol) withUnmapped.1 symbols with
      | .error e => .error e
      | .ok f =>
        fragments_loop serialize matcher sg changed_atom_tags radius category
          expansion mols (fragments ++ '(' :: (f ++ ").".toList))

def get_fragments_for_changed_atoms
    (serialize : Mol → List Nat → List Str → Except Err Str)
    (matcher : Str → Mol → List (List Nat)) (sg : Bool) (mols : List Mol)
    (changed_atom_tags : List Str) (radius : Nat) (category : Str)
    (expansion : List Str) : Except Err Str :=
  fragments_loop serialize matcher sg changed_atom_tags radius category
    expansion mols []

/-- Scanner for the quirky regex `\:([[0-9]+)\]` of source line 351: its
character class `[[0-9]` matches a digit or a literal `[`. -/
def findLabelsBAux : Nat → Str → List Str
  | 0, _ => []
  | _ + 1, [] => []
  | f + 1, c :: cs =>
    let ds := cs.takeWhile (fun x => x.isDigit || x = '[')
    let rest := cs.dropWhile (fun x => x.isDigit || x = '[')
    if c = ':' ∧ ds ≠ [] ∧ rest.head? = some ']' then
      ds :: findLabelsBAux f rest.tail
    else findLabelsBAux f cs

def findLabelsB (s : Str) : List Str := findLabelsBAux s.length s

/-- Embedding of `expand_changed_atom_tags` (source lines 344-356). -/
def expand_changed_atom_tags (changed_atom_tags : List Str)
    (reactant_fragments : Str) : List Str :=
  (findLabelsB reactant_fragments).foldl (fun expansion atom_tag =>
    if atom_tag ∉ changed_atom_tags then expansion ++ [atom_tag] else expansion)
    []

/-- A parsed reaction: `MolFromSmiles` returns `None` for unparsable pieces,
modelled as `none` entries (checked later at source line 532). -/
structure Reaction where
  reactants : List (Option Mol)
  agents : List (Option Mol)
  products : List (Option Mol)

/-- External collaborators of the scan driver: the fragment serializer, the
substructure matcher, and `ReactionFromSmarts() … .Validate()[1]` (which may
raise, hence `Except`; the `Nat` is the error count). -/
structure Toolkit where
  serialize : Mol → List Nat → List Str → Except Err Str
  matcher : Str → Mol → List (List Nat)
  validate : Str → Except Err Nat

/-- One input record as the driver sees it: the outcome of the
parse/sanitize stage (source lines 505-510) and the file position
`reaction_fid.tell()`. -/
structure RecordData where
  parsed : Except Err Reaction
  tellPos : Nat

/-- Driver state: the template frequency table (`defaultdict(int)`) and the
scoring counters of source lines 487-492. -/
structure ScanState where
  template_dict : List (Str × Nat)
  total_attempted : Nat
  total_correct : Nat
  total_precise : Nat
  total_unmapped : Nat
  total_partialmapped : Nat
  total_nonreaction : Nat
deriving DecidableEq

/-- Observable driver actions: a fragment-extraction invocation with its
category and radius, and the two checkpoint writes of source lines 591-596. -/
inductive Event where
  | fragCall (category : Str) (radius : Nat)
  | writeTable (d : List (Str × Nat))
  | writeCursor (pos : Nat)
deriving DecidableEq

/-- `template_dict[key] += 1` on a `defaultdict(int)`. -/
def dictIncr : List (Str × Nat) → Str → List (Str × Nat)
  | [], k => [(k, 1)]
  | (k2, v) :: d, k => if k = k2 then (k2, v + 1) :: d else (k2, v) :: dictIncr d k

/-- The product-mapping check of source lines 520-529: iterate over every
product, latching `skip` when some product has fewer mapped atoms than atoms;
a `None` product raises (`AttributeError` at `product.GetAtoms()`). -/
def checkPartialMappingAux (skip : Bool) : List (Option Mol) → Except Err Bool
  | [] => .ok skip
  | none :: _ => .error ⟨"AttributeError".toList⟩
  | some p :: rest =>
    checkPartialMappingAux
      (skip || decide ((p.countP (fun a => a.molAtomMapNumber.isSome)) < p.length))
      rest

def checkPartialMapping (products : List (Option Mol)) : Except Err Bool :=
  checkPartialMappingAux false products

/-- Embedding of the per-record body of `main`'s loop (source lines 505-599).
Both exception handlers execute `raise(e)` before their `print`/`continue`,
so any exception escapes the record as `.error`.  The event list records the
fragment-extraction invocations (category and radius) and the checkpoint
writes; a record reaches the checkpoint code (lines 587-596) only when no
`continue` fired, and the table dump precedes the cursor dump. -/
def process_record (tk : Toolkit) (sg : Bool) (rd : RecordData) (i : Nat)
    (s : ScanState) : Except Err ScanState × List Event :=
  match rd.parsed with
  | .error e => (.error e, [])
  | .ok rxn =>
    match checkPartialMapping rxn.products with
    | .error e => (.error e, [])
    | .ok skip =>
      if skip then
        (.ok { s with total_partialmapped := s.total_partialmapped + 1 }, [])
      else if none ∈ rxn.reactants ++ rxn.products then (.ok s, [])
      else
        match get_changed_atoms rxn.reactants.reduceOption
            rxn.products.reduceOption with
        | (_, ctags, err) =>
          if err ≠ 0 then (.ok s, [])
          else if ctags = [] then (.ok s, [])
          else
            match get_fragments_for_changed_atoms tk.serialize tk.matcher sg
                rxn.reactants.reduceOption ctags 1 "reactants".toList [] with
            | .error e => (.error e, [.fragCall "reactants".toList 1])
            | .ok reactant_fragments =>
              match get_fragments_for_changed_atoms tk.serialize tk.matcher sg
                  rxn.products.reduceOption ctags 0 "products".toList
                  (expand_changed_atom_tags ctags reactant_fragments) with
              | .error e => (.error e,
                  [.fragCall "reactants".toList 1, .fragCall "products".toList 0])
              | .ok product_fragments =>
                match tk.validate
                    (reactant_fragments ++ ">>".toList ++ product_fragments) with
                | .error e => (.error e,
                    [.fragCall "reactants".toList 1, .fragCall "products".toList 0])
                | .ok nerr =>
                  if nerr ≠ 0 then
                    (.ok s,
                     [.fragCall "reactants".toList 1, .fragCall "products".toList 0])
                  else
                    (.ok { s with
                        template_dict := dictIncr s.template_dict
                          (convert_to_retro (canonicalize_transform
                            (reactant_fragments ++ ">>".toList ++ product_fragments))),
                        total_attempted := s.total_attempted + 1 },
                      [.fragCall "reactants".toList 1,
                       .fragCall "products".toList 0] ++
                      (if i % 10000 = 0 then
                        [.writeTable (dictIncr s.template_dict
                          (convert_to_retro (canonicalize_transform
                            (reactant_fragments ++ ">>".toList ++ product_fragments)))),
                         .writeCursor rd.tellPos]
                      else []))

/-- The scan over the records (source lines 496-599): records processed in
order with the running index `i`; an escaped exception aborts the scan. -/
def run_records (tk : Toolkit) (sg : Bool) :
    List RecordData → Nat → ScanState → Except Err ScanState × List Event
  | [], _, s => (.ok s, [])
  | rd :: rds, i, s =>
    match process_record tk sg rd i s with
    | (.error e, evs) => (.error e, evs)
    | (.ok s2, evs) =>
      let r := run_records tk sg rds (i + 1) s2
      (r.1, evs ++ r.2)

/-- The empty initial scan state (source lines 487-492 with an empty table). -/
def initState : ScanState := ⟨[], 0, 0, 0, 0, 0, 0⟩

/-- One product's partial-mapping test (source line 523): fewer mapped atoms
than atoms.  `none` never reaches this test — it raises earlier. -/
def productPartial (m : Option Mol) : Bool :=
  match m with
  | some p => decide (p.countP (fun a => a.molAtomMapNumber.isSome) < p.length)
  | none => false

/-- A toolkit whose serializer always emits the fragment text `F` and whose
validator always reports zero errors, for concrete runs of the driver. -/
def okToolkit : Toolkit :=
  ⟨fun _ _ _ => .ok "F".toList, fun _ _ => [], fun _ => .ok 0⟩

/-- A mapped reactant atom for concrete driver runs. -/
def exReacAtom : Atom := ⟨"[CH3:1]".toList, 6, 3, 0, 1, 0, false, some ['1'], [], []⟩

/-- The changed product counterpart of `exReacAtom` (one hydrogen fewer). -/
def exProdAtom : Atom := ⟨"[CH2:1]".toList, 6, 2, 0, 1, 0, false, some ['1'], [], []⟩

/-- A record that parses into the fully mapped one-atom reaction
`exReacAtom >> exProdAtom`, which the driver records successfully. -/
def goodRecord : RecordData :=
  ⟨.ok ⟨[some [exReacAtom]], [], [some [exProdAtom]]⟩, 77⟩

/-- A record whose parse/sanitize stage raised. -/
def badRecord : RecordData := ⟨.error ⟨"ValueError".toList⟩, 33⟩

/-- A record whose product contains an unmapped atom next to mapped ones. -/
def partialRecord : RecordData :=
  ⟨.ok ⟨[some [exReacAtom]], [],
    [some [exProdAtom, ⟨"[OH]".toList, 8, 1, 0, 1, 0, false, none, [], []⟩]]⟩, 55⟩

theorem lexLe_refl (a : Str) : lexLe a a = true := by
  induction a with
  | nil => rfl
  | cons c cs ih => simp [lexLe, ih]

theorem lexLe_total (a b : Str) : lexLe a b = true ∨ lexLe b a = true := by
  induction a generalizing b with
  | nil => exact Or.inl rfl
  | cons c cs ih =>
    cases b with
    | nil => exact Or.inr rfl
    | cons d ds =>
      by_cases h1 : c < d
      · exact Or.inl (by simp [lexLe, h1])
      · by_cases h2 : d < c
        · exact Or.inr (by simp [lexLe, h2])
        · rcases ih ds with h | h
          · exact Or.inl (by simp [lexLe, h1, h2, h])
          · exact Or.inr (by simp [lexLe, h1, h2, h])

theorem lexLe_antisymm {a b : Str} (h1 : lexLe a b = true) (h2 : lexLe b a = true) :
    a = b := by
  induction a generalizing b with
  | nil =>
    cases b with
    | nil => rfl
    | cons d ds => simp [lexLe] at h2
  | cons c cs ih =>
    cases b with
    | nil => simp [lexLe] at h1
    | cons d ds =>
      by_cases hcd : c < d
      · simp [lexLe, hcd, lt_asymm hcd] at h2
      · by_cases hdc : d < c
        · simp [lexLe, hcd, hdc] at h1
        · have hc : c = d := le_antisymm (not_lt.mp hdc) (not_lt.mp hcd)
          subst hc
          simp only [lexLe, lt_irrefl, if_false] at h1 h2
          exact congrArg (c :: ·) (ih h1 h2)

theorem lexLe_trans {a b c : Str} (h1 : lexLe a b = true) (h2 : lexLe b c = true) :
    lexLe a c = true := by
  induction a generalizing b c with
  | nil => rfl
  | cons x xs ih =>
    cases b with
    | nil => simp [lexLe] at h1
    | cons y ys =>
      cases c with
      | nil => simp [lexLe] at h2
      | cons z zs =>
        by_cases hxy : x < y
        · by_cases hyz : y < z
          · simp [lexLe, lt_trans hxy hyz]
          · by_cases hzy : z < y
            · simp [lexLe, hxy, hyz, hzy] at h2
            · have : y = z := le_antisymm (not_lt.mp hzy) (not_lt.mp hyz)
              subst this
              simp [lexLe, hxy]
        · by_cases hyx : y < x
          · simp [lexLe, hxy, hyx] at h1
          · have : x = y := le_antisymm (not_lt.mp hyx) (not_lt.mp hxy)
            subst this
            simp only [lexLe, lt_irrefl, if_false] at h1
            by_cases hyz : x < z
            · simp [lexLe, hyz]
            · by_cases hzy : z < x
              · simp [lexLe, hyz, hzy] at h2
              · have : x = z := le_antisymm (not_lt.mp hzy) (not_lt.mp hyz)
                subst this
                simp only [lexLe, lt_irrefl, if_false] at h2 ⊢
                exact ih h1 h2

theorem firstSplit_eq {sep : Str} :
    ∀ {s pre post : Str}, firstSplit sep s = some (pre, post) →
      s = pre ++ sep ++ post := by
  intro s
  induction s with
  | nil => intro pre post h; simp [firstSplit] at h
  | cons c cs ih =>
    intro pre post h
    by_cases hp : sep.isPrefixOf (c :: cs)
    · rw [firstSplit, if_pos hp] at h
      obtain ⟨t, ht⟩ := List.isPrefixOf_iff_prefix.mp hp
      injection h with h
      injection h with h1 h2
      subst h1
      rw [← ht] at h2 ⊢
      rw [List.drop_left' rfl] at h2
      simp [← h2, ht]
    · rw [firstSplit, if_neg hp] at h
      cases hfs : firstSplit sep cs with
      | none => rw [hfs] at h; exact absurd h (by simp)
      | some pq =>
        obtain ⟨p, q⟩ := pq
        rw [hfs] at h
        injection h with h
        injection h with h1 h2
        subst h1; subst h2
        have := ih hfs
        simp [this]

theorem firstSplit_post_lt {sep : Str} (hsep : sep ≠ []) {s pre post : Str}
    (h : firstSplit sep s = some (pre, post)) : post.length < s.length := by
  have := firstSplit_eq h
  subst this
  have : 0 < sep.length := List.length_pos.mpr hsep
  simp only [List.length_append]
  omega

theorem splitOnAux_fuel {sep : Str} (hsep : sep ≠ []) :
    ∀ f g s, s.length ≤ f → s.length ≤ g →
      splitOnAux sep f s = splitOnAux sep g s := by
  intro f
  induction f with
  | zero =>
    intro g s hf hg
    have : s = [] := List.eq_nil_of_length_eq_zero (Nat.le_zero.mp hf)
    subst this
    cases g with
    | zero => rfl
    | succ g => simp [splitOnAux, firstSplit]
  | succ f ih =>
    intro g s hf hg
    cases g with
    | zero =>
      have : s = [] := List.eq_nil_of_length_eq_zero (Nat.le_zero.mp hg)
      subst this
      simp [splitOnAux, firstSplit]
    | succ g =>
      simp only [splitOnAux]
      cases hfs : firstSplit sep s with
      | none => rfl
      | some pq =>
        obtain ⟨pre, post⟩ := pq
        have hlt := firstSplit_post_lt hsep hfs
        exact congrArg (pre :: ·) (ih g post (by omega) (by omega))

theorem splitOnStr_eq {sep : Str} (hsep : sep ≠ []) (s : Str) :
    splitOnStr sep s =
      match firstSplit sep s with
      | none => [s]
      | some (pre, post) => pre :: splitOnStr sep post := by
  cases hfs : firstSplit sep s with
  | none =>
    cases s with
    | nil => rfl
    | cons c cs => simp only [splitOnStr, List.length_cons, splitOnAux, hfs]
  | some pq =>
    obtain ⟨pre, post⟩ := pq
    have hlt := firstSplit_post_lt hsep hfs
    cases s with
    | nil => simp [firstSplit] at hfs
    | cons c cs =>
      simp only [List.length_cons] at hlt
      simp only [splitOnStr, List.length_cons, splitOnAux, hfs]
      exact congrArg (pre :: ·) (splitOnAux_fuel hsep _ _ post (by omega) le_rfl)

theorem splitOnStr_ne_nil (sep s : Str) : splitOnStr sep s ≠ [] := by
  by_cases hsep : sep = []
  · subst hsep
    cases s with
    | nil => simp [splitOnStr, splitOnAux]
    | cons c cs => simp [splitOnStr, splitOnAux, firstSplit]
  · rw [splitOnStr_eq hsep]
    cases firstSplit sep s with
    | none => simp
    | some pq => obtain ⟨p, q⟩ := pq; simp

theorem joinStr_cons (sep : Str) (x : Str) {l : List Str} (hl : l ≠ []) :
    joinStr sep (x :: l) = x ++ sep ++ joinStr sep l := by
  cases l with
  | nil => exact absurd rfl hl
  | cons y ys => rfl

/-- Round trip: `sep.join(s.split(sep)) == s`, unconditionally (Python invariant). -/
theorem joinStr_splitOnStr {sep : Str} (hsep : sep ≠ []) (s : Str) :
    joinStr sep (splitOnStr sep s) = s := by
  suffices H : ∀ n s, s.length = n → joinStr sep (splitOnStr sep s) = s from
    H s.length s rfl
  intro n
  induction n using Nat.strong_induction_on with
  | _ n ih =>
    intro s hn
    subst hn
    rw [splitOnStr_eq hsep]
    cases hfs : firstSplit sep s with
    | none => rfl
    | some pq =>
      obtain ⟨pre, post⟩ := pq
      have hlt := firstSplit_post_lt hsep hfs
      rw [joinStr_cons sep pre (splitOnStr_ne_nil sep post),
        ih post.length hlt post rfl]
      exact (firstSplit_eq hfs).symm

theorem labelRest_length_le (cs : Str) : (labelRest cs).length ≤ cs.length := by
  have h1 : (cs.dropWhile Char.isDigit).length ≤ cs.length :=
    (List.dropWhile_sublist Char.isDigit).length_le
  calc (labelRest cs).length ≤ (cs.dropWhile Char.isDigit).length :=
        (List.tail_sublist _).length_le
    _ ≤ cs.length := h1

theorem labelHead_decomp {cs : Str} (h : LabelHead cs) :
    cs = labelDigits cs ++ ']' :: labelRest cs := by
  obtain ⟨h1, h2⟩ := h
  cases hd : cs.dropWhile Char.isDigit with
  | nil => rw [hd] at h2; simp at h2
  | cons d t =>
    rw [hd] at h2
    simp only [List.head?_cons, Option.some.injEq] at h2
    subst h2
    have := List.takeWhile_append_dropWhile (p := Char.isDigit) (l := cs)
    rw [hd] at this
    simp only [labelDigits, labelRest, hd, List.tail_cons]
    exact this.symm

theorem labelDigits_allDigits (cs : Str) : AllDigits (labelDigits cs) := by
  intro c hc
  exact List.mem_takeWhile_imp hc

theorem stripAux_fuel :
    ∀ f g s, s.length ≤ f → s.length ≤ g → stripAux f s = stripAux g s := by
  intro f
  induction f with
  | zero =>
    intro g s hf _
    have : s = [] := List.eq_nil_of_length_eq_zero (Nat.le_zero.mp hf)
    subst this
    cases g <;> rfl
  | succ f ih =>
    intro g s hf hg
    cases s with
    | nil => cases g <;> rfl
    | cons c cs =>
      cases g with
      | zero => simp at hg
      | succ g =>
        simp only [List.length_cons] at hf hg
        simp only [stripAux]
        by_cases hc : c = ':' ∧ LabelHead cs
        · rw [if_pos hc, if_pos hc]
          have hr := labelRest_length_le cs
          exact congrArg (']' :: ·) (ih g (labelRest cs) (by omega) (by omega))
        · rw [if_neg hc, if_neg hc]
          exact congrArg (c :: ·) (ih g cs (by omega) (by omega))

theorem stripLabels_nil : stripLabels [] = [] := rfl

theorem stripLabels_cons (c : Char) (cs : Str) :
    stripLabels (c :: cs) =
      if c = ':' ∧ LabelHead cs then ']' :: stripLabels (labelRest cs)
      else c :: stripLabels cs := by
  simp only [stripLabels, List.length_cons, stripAux]
  by_cases hc : c = ':' ∧ LabelHead cs
  · rw [if_pos hc, if_pos hc]
    exact congrArg (']' :: ·)
      (stripAux_fuel cs.length (labelRest cs).length (labelRest cs)
        (labelRest_length_le cs) le_rfl)
  · rw [if_neg hc, if_neg hc]

theorem stripLabels_cons_safe {c : Char} (cs : Str) (hc : c ≠ ':') :
    stripLabels (c :: cs) = c :: stripLabels cs := by
  rw [stripLabels_cons, if_neg (by simp [hc])]

theorem findLabelsAux_fuel :
    ∀ f g s, s.length ≤ f → s.length ≤ g → findLabelsAux f s = findLabelsAux g s := by
  intro f
  induction f with
  | zero =>
    intro g s hf _
    have : s = [] := List.eq_nil_of_length_eq_zero (Nat.le_zero.mp hf)
    subst this
    cases g <;> rfl
  | succ f ih =>
    intro g s hf hg
    cases s with
    | nil => cases g <;> rfl
    | cons c cs =>
      cases g with
      | zero => simp at hg
      | succ g =>
        simp only [List.length_cons] at hf hg
        simp only [findLabelsAux]
        by_cases hc : c = ':' ∧ LabelHead cs
        · rw [if_pos hc, if_pos hc]
          have hr := labelRest_length_le cs
          exact congrArg (labelDigits cs :: ·) (ih g (labelRest cs) (by omega) (by omega))
        · rw [if_neg hc, if_neg hc]
          exact ih g cs (by omega) (by omega)

theorem findLabels_nil : findLabels [] = [] := rfl

theorem findLabels_cons (c : Char) (cs : Str) :
    findLabels (c :: cs) =
      if c = ':' ∧ LabelHead cs then labelDigits cs :: findLabels (labelRest cs)
      else findLabels cs := by
  simp only [findLabels, List.length_cons, findLabelsAux]
  by_cases hc : c = ':' ∧ LabelHead cs
  · rw [if_pos hc, if_pos hc]
    exact congrArg (labelDigits cs :: ·)
      (findLabelsAux_fuel cs.length (labelRest cs).length (labelRest cs)
        (labelRest_length_le cs) le_rfl)
  · rw [if_neg hc, if_neg hc]

theorem rebuildAux_fuel :
    ∀ f g s repl, s.length ≤ f → s.length ≤ g →
      rebuildAux f s repl = rebuildAux g s repl := by
  intro f
  induction f with
  | zero =>
    intro g s repl hf _
    have : s = [] := List.eq_nil_of_length_eq_zero (Nat.le_zero.mp hf)
    subst this
    cases g <;> rfl
  | succ f ih =>
    intro g s repl hf hg
    cases s with
    | nil => cases g <;> rfl
    | cons c cs =>
      cases g with
      | zero => simp at hg
      | succ g =>
        simp only [List.length_cons] at hf hg
        simp only [rebuildAux]
        by_cases hc : c = ':' ∧ LabelHead cs
        · rw [if_pos hc, if_pos hc]
          have hr := labelRest_length_le cs
          exact congrArg _ (congrArg _ (congrArg _
            (ih g (labelRest cs) repl.tail (by omega) (by omega))))
        · rw [if_neg hc, if_neg hc]
          exact congrArg (c :: ·) (ih g cs repl (by omega) (by omega))

theorem rebuildLabels_nil (repl : List Str) : rebuildLabels [] repl = [] := rfl

theorem rebuildLabels_cons (c : Char) (cs : Str) (repl : List Str) :
    rebuildLabels (c :: cs) repl =
      if c = ':' ∧ LabelHead cs then
        ':' :: (repl.headD (labelDigits cs) ++ ']' :: rebuildLabels (labelRest cs) repl.tail)
      else c :: rebuildLabels cs repl := by
  simp only [rebuildLabels, List.length_cons, rebuildAux]
  by_cases hc : c = ':' ∧ LabelHead cs
  · rw [if_pos hc, if_pos hc]
    exact congrArg _ (congrArg _ (congrArg _
      (rebuildAux_fuel cs.length (labelRest cs).length (labelRest cs) repl.tail
        (labelRest_length_le cs) le_rfl)))
  · rw [if_neg hc, if_neg hc]

theorem relabelAux_fuel (g0 : Str → Str) :
    ∀ f g s, s.length ≤ f → s.length ≤ g → relabelAux g0 f s = relabelAux g0 g s := by
  intro f
  induction f with
  | zero =>
    intro g s hf _
    have : s = [] := List.eq_nil_of_length_eq_zero (Nat.le_zero.mp hf)
    subst this
    cases g <;> rfl
  | succ f ih =>
    intro g s hf hg
    cases s with
    | nil => cases g <;> rfl
    | cons c cs =>
      cases g with
      | zero => simp at hg
      | succ g =>
        simp only [List.length_cons] at hf hg
        simp only [relabelAux]
        by_cases hc : c = ':' ∧ LabelHead cs
        · rw [if_pos hc, if_pos hc]
          have hr := labelRest_length_le cs
          exact congrArg _ (congrArg _ (congrArg _
            (ih g (labelRest cs) (by omega) (by omega))))
        · rw [if_neg hc, if_neg hc]
          exact congrArg (c :: ·) (ih g cs (by omega) (by omega))

theorem relabelStr_nil (g : Str → Str) : relabelStr g [] = [] := rfl

theorem relabelStr_cons (g : Str → Str) (c : Char) (cs : Str) :
    relabelStr g (c :: cs) =
      if c = ':' ∧ LabelHead cs then
        ':' :: (g (labelDigits cs) ++ ']' :: relabelStr g (labelRest cs))
      else c :: relabelStr g cs := by
  simp only [relabelStr, List.length_cons, relabelAux]
  by_cases hc : c = ':' ∧ LabelHead cs
  · rw [if_pos hc, if_pos hc]
    exact congrArg _ (congrArg _ (congrArg _
      (relabelAux_fuel g cs.length (labelRest cs).length (labelRest cs)
        (labelRest_length_le cs) le_rfl)))
  · rw [if_neg hc, if_neg hc]

theorem digitChar_isDigit {d : Nat} (h : d < 10) : (digitChar d).isDigit = true := by
  interval_cases d <;> decide

theorem digitChar_toNat {d : Nat} (h : d < 10) : (digitChar d).toNat = 48 + d := by
  interval_cases d <;> decide

theorem digitChar_ne_rbracket {d : Nat} (h : d < 10) : digitChar d ≠ ']' := by
  interval_cases d <;> decide

theorem natDigitsAux_fuel :
    ∀ f g n, n < f → n < g → natDigitsAux f n = natDigitsAux g n := by
  intro f
  induction f with
  | zero => intro g n hf; omega
  | succ f ih =>
    intro g n hf hg
    cases g with
    | zero => omega
    | succ g =>
      simp only [natDigitsAux]
      by_cases h10 : n < 10
      · rw [if_pos h10, if_pos h10]
      · rw [if_neg h10, if_neg h10]
        have hd : n / 10 < n := Nat.div_lt_self (by omega) (by omega)
        rw [ih g (n / 10) (by omega) (by omega)]

theorem natDigits_eq (n : Nat) :
    natDigits n =
      if n < 10 then [digitChar n]
      else natDigits (n / 10) ++ [digitChar (n % 10)] := by
  by_cases h10 : n < 10
  · rw [if_pos h10]
    show natDigitsAux (n + 1) n = _
    simp only [natDigitsAux]
    rw [if_pos h10]
  · rw [if_neg h10]
    show natDigitsAux (n + 1) n = _
    simp only [natDigitsAux]
    rw [if_neg h10]
    have hd : n / 10 < n := Nat.div_lt_self (by omega) (by omega)
    rw [natDigitsAux_fuel n (n / 10 + 1) (n / 10) (by omega) (by omega)]
    rfl

theorem natDigits_ne_nil (n : Nat) : natDigits n ≠ [] := by
  rw [natDigits_eq]
  by_cases h10 : n < 10
  · rw [if_pos h10]; simp
  · rw [if_neg h10]; simp

theorem natDigits_allDigits (n : Nat) : AllDigits (natDigits n) := by
  induction n using Nat.strong_induction_on with
  | _ n ih =>
    rw [natDigits_eq]
    by_cases h10 : n < 10
    · rw [if_pos h10]
      intro c hc
      simp only [List.mem_singleton] at hc
      subst hc
      exact digitChar_isDigit h10
    · rw [if_neg h10]
      intro c hc
      rcases List.mem_append.mp hc with h | h
      · exact ih (n / 10) (Nat.div_lt_self (by omega) (by omega)) c h
      · simp only [List.mem_singleton] at h
        subst h
        exact digitChar_isDigit (Nat.mod_lt n (by omega))

theorem digitsToNat_append (a : Str) (c : Char) :
    digitsToNat (a ++ [c]) = 10 * digitsToNat a + (c.toNat - 48) := by
  simp [digitsToNat, List.foldl_append]

theorem digitsToNat_natDigits (n : Nat) : digitsToNat (natDigits n) = n := by
  induction n using Nat.strong_induction_on with
  | _ n ih =>
    rw [natDigits_eq]
    by_cases h10 : n < 10
    · rw [if_pos h10]
      simp [digitsToNat, digitChar_toNat h10]
    · rw [if_neg h10, digitsToNat_append,
        ih (n / 10) (Nat.div_lt_self (by omega) (by omega)),
        digitChar_toNat (Nat.mod_lt n (by omega))]
      omega

theorem natDigits_injective {m n : Nat} (h : natDigits m = natDigits n) : m = n := by
  have := congrArg digitsToNat h
  rwa [digitsToNat_natDigits, digitsToNat_natDigits] at this

theorem dropWhile_head_not {p : Char → Bool} {l t : Str} {x : Char}
    (h : l.dropWhile p = x :: t) : p x = false := by
  induction l with
  | nil => simp [List.dropWhile] at h
  | cons c cs ih =>
    rw [List.dropWhile_cons] at h
    by_cases hc : p c
    · rw [if_pos hc] at h; exact ih h
    · rw [if_neg hc] at h
      injection h with h1 _
      subst h1
      simpa using hc

theorem takeWhile_alldigits {ds : Str} (h : AllDigits ds) :
    ds.takeWhile Char.isDigit = ds :=
  List.takeWhile_eq_self_iff.mpr h

theorem dropWhile_alldigits {ds : Str} (h : AllDigits ds) :
    ds.dropWhile Char.isDigit = [] :=
  List.dropWhile_eq_nil_iff.mpr h

theorem takeWhile_digits_append {ds : Str} (h : AllDigits ds) {x : Char}
    (hx : x.isDigit = false) (r : Str) :
    (ds ++ x :: r).takeWhile Char.isDigit = ds ∧
      (ds ++ x :: r).dropWhile Char.isDigit = x :: r := by
  constructor
  · rw [List.takeWhile_append, if_pos (by rw [takeWhile_alldigits h])]
    simp [List.takeWhile_cons, hx]
  · rw [List.dropWhile_append, if_pos (by simp [dropWhile_alldigits h])]
    simp [List.dropWhile_cons, hx]

theorem labelHead_mk {ds : Str} (hne : ds ≠ []) (h : AllDigits ds) (r : Str) :
    LabelHead (ds ++ ']' :: r) ∧ labelDigits (ds ++ ']' :: r) = ds ∧
      labelRest (ds ++ ']' :: r) = r := by
  have hx : (']' : Char).isDigit = false := by decide
  obtain ⟨h1, h2⟩ := takeWhile_digits_append h hx r
  exact ⟨⟨by rw [h1]; exact hne, by rw [h2]; rfl⟩,
    by simp [labelDigits, h1], by simp [labelRest, h2]⟩

theorem takeWhile_len_ne {a : Str} {x : Char} {t : Str}
    (hd : a.dropWhile Char.isDigit = x :: t) :
    ¬ (a.takeWhile Char.isDigit).length = a.length := by
  have := List.takeWhile_append_dropWhile (p := Char.isDigit) (l := a)
  have hlen := congrArg List.length this
  rw [List.length_append, hd] at hlen
  simp only [List.length_cons] at hlen
  omega

theorem labelHead_append_safe {c : Char} (hc : SafeChar c) (a b : Str) :
    LabelHead (a ++ c :: b) ↔ LabelHead a := by
  obtain ⟨hc1, hc2, hc3⟩ := hc
  cases hd : a.dropWhile Char.isDigit with
  | nil =>
    have ha : AllDigits a := List.dropWhile_eq_nil_iff.mp hd
    obtain ⟨h1, h2⟩ := takeWhile_digits_append ha hc3 b
    constructor
    · rintro ⟨_, hh⟩
      rw [h2] at hh
      simp only [List.head?_cons, Option.some.injEq] at hh
      exact absurd hh hc2
    · rintro ⟨_, hh⟩
      rw [hd] at hh
      simp at hh
  | cons x t =>
    have h1 : (a ++ c :: b).takeWhile Char.isDigit = a.takeWhile Char.isDigit := by
      rw [List.takeWhile_append, if_neg (takeWhile_len_ne hd)]
    have h2 : (a ++ c :: b).dropWhile Char.isDigit = x :: (t ++ c :: b) := by
      rw [List.dropWhile_append, if_neg (by simp [hd]), hd]
      rfl
    constructor
    · rintro ⟨hh1, hh2⟩
      rw [h1] at hh1
      rw [h2] at hh2
      simp only [List.head?_cons, Option.some.injEq] at hh2
      refine ⟨hh1, ?_⟩
      rw [hd]
      simp [hh2]
    · rintro ⟨hh1, hh2⟩
      rw [hd] at hh2
      simp only [List.head?_cons] at hh2
      exact ⟨by rw [h1]; exact hh1, by rw [h2]; simpa using hh2⟩

theorem labelParts_append_safe {c : Char} {a : Str} (b : Str)
    (h : LabelHead a) :
    labelDigits (a ++ c :: b) = labelDigits a ∧
      labelRest (a ++ c :: b) = labelRest a ++ c :: b := by
  obtain ⟨hh1, hh2⟩ := h
  cases hd : a.dropWhile Char.isDigit with
  | nil => rw [hd] at hh2; simp at hh2
  | cons x t =>
    have h1 : (a ++ c :: b).takeWhile Char.isDigit = a.takeWhile Char.isDigit := by
      rw [List.takeWhile_append, if_neg (takeWhile_len_ne hd)]
    have h2 : (a ++ c :: b).dropWhile Char.isDigit = x :: (t ++ c :: b) := by
      rw [List.dropWhile_append, if_neg (by simp [hd]), hd]
      rfl
    exact ⟨by simp [labelDigits, h1], by simp [labelRest, h2, hd]⟩

theorem relabelStr_cons_safe (g : Str → Str) {c : Char} (cs : Str) (hc : c ≠ ':') :
    relabelStr g (c :: cs) = c :: relabelStr g cs := by
  rw [relabelStr_cons, if_neg (by simp [hc])]

theorem rebuildLabels_cons_safe {c : Char} (cs : Str) (repl : List Str) (hc : c ≠ ':') :
    rebuildLabels (c :: cs) repl = c :: rebuildLabels cs repl := by
  rw [rebuildLabels_cons, if_neg (by simp [hc])]

theorem relabelStr_nocolon_append (g : Str → Str) {a : Str}
    (ha : ∀ c ∈ a, c ≠ ':') (t : Str) :
    relabelStr g (a ++ t) = a ++ relabelStr g t := by
  induction a with
  | nil => rfl
  | cons c cs ih =>
    rw [List.cons_append, relabelStr_cons_safe g _ (ha c (by simp)),
      ih (fun x hx => ha x (by simp [hx]))]
    rfl

theorem stripLabels_nocolon_append {a : Str} (ha : ∀ c ∈ a, c ≠ ':') (t : Str) :
    stripLabels (a ++ t) = a ++ stripLabels t := by
  induction a with
  | nil => rfl
  | cons c cs ih =>
    rw [List.cons_append, stripLabels_cons_safe _ (ha c (by simp)),
      ih (fun x hx => ha x (by simp [hx]))]
    rfl

theorem rebuildLabels_nocolon_append {a : Str} (ha : ∀ c ∈ a, c ≠ ':')
    (t : Str) (repl : List Str) :
    rebuildLabels (a ++ t) repl = a ++ rebuildLabels t repl := by
  induction a with
  | nil => rfl
  | cons c cs ih =>
    rw [List.cons_append, rebuildLabels_cons_safe _ _ (ha c (by simp)),
      ih (fun x hx => ha x (by simp [hx]))]
    rfl

theorem digit_ne_colon {c : Char} (h : c.isDigit = true) : c ≠ ':' := by
  intro hc; subst hc; simp at h

theorem alldigits_takeWhile (s : Str) : AllDigits (s.takeWhile Char.isDigit) :=
  fun _ hc => List.mem_takeWhile_imp hc

theorem relabelStr_head (g : Str → Str) (s : Str) :
    (relabelStr g s).head? = s.head? := by
  cases s with
  | nil => rfl
  | cons c cs =>
    rw [relabelStr_cons]
    by_cases hc : c = ':' ∧ LabelHead cs
    · rw [if_pos hc]; obtain ⟨h1, _⟩ := hc; subst h1; rfl
    · rw [if_neg hc]; rfl

theorem rebuildLabels_head (s : Str) (repl : List Str) :
    (rebuildLabels s repl).head? = s.head? := by
  cases s with
  | nil => rfl
  | cons c cs =>
    rw [rebuildLabels_cons]
    by_cases hc : c = ':' ∧ LabelHead cs
    · rw [if_pos hc]; obtain ⟨h1, _⟩ := hc; subst h1; rfl
    · rw [if_neg hc]; rfl

theorem relabelStr_splitDigits (g : Str → Str) (s : Str) :
    (relabelStr g s).takeWhile Char.isDigit = s.takeWhile Char.isDigit ∧
      (relabelStr g s).dropWhile Char.isDigit =
        relabelStr g (s.dropWhile Char.isDigit) := by
  have hself := (List.takeWhile_append_dropWhile (p := Char.isDigit) (l := s)).symm
  have hds : AllDigits (s.takeWhile Char.isDigit) := alldigits_takeWhile s
  have hrw : relabelStr g s =
      s.takeWhile Char.isDigit ++ relabelStr g (s.dropWhile Char.isDigit) := by
    conv_lhs => rw [hself]
    exact relabelStr_nocolon_append g (fun c hc => digit_ne_colon (hds c hc)) _
  cases hd : s.dropWhile Char.isDigit with
  | nil =>
    rw [hrw, hd]
    simp [takeWhile_alldigits hds, dropWhile_alldigits hds, relabelStr_nil]
  | cons x t =>
    have hx : x.isDigit = false := dropWhile_head_not hd
    have hhead : (relabelStr g (x :: t)).head? = some x := by
      rw [relabelStr_head]; rfl
    cases hr : relabelStr g (x :: t) with
    | nil => rw [hr] at hhead; simp at hhead
    | cons y u =>
      rw [hr] at hhead
      simp only [List.head?_cons, Option.some.injEq] at hhead
      subst hhead
      rw [hrw, hd, hr]
      obtain ⟨h1, h2⟩ := takeWhile_digits_append hds hx u
      exact ⟨h1, h2⟩

theorem rebuildLabels_splitDigits (s : Str) (repl : List Str) :
    (rebuildLabels s repl).takeWhile Char.isDigit = s.takeWhile Char.isDigit ∧
      (rebuildLabels s repl).dropWhile Char.isDigit =
        rebuildLabels (s.dropWhile Char.isDigit) repl := by
  have hself := (List.takeWhile_append_dropWhile (p := Char.isDigit) (l := s)).symm
  have hds : AllDigits (s.takeWhile Char.isDigit) := alldigits_takeWhile s
  have hrw : rebuildLabels s repl =
      s.takeWhile Char.isDigit ++ rebuildLabels (s.dropWhile Char.isDigit) repl := by
    conv_lhs => rw [hself]
    exact rebuildLabels_nocolon_append (fun c hc => digit_ne_colon (hds c hc)) _ repl
  cases hd : s.dropWhile Char.isDigit with
  | nil =>
    rw [hrw, hd]
    simp [takeWhile_alldigits hds, dropWhile_alldigits hds, rebuildLabels_nil]
  | cons x t =>
    have hx : x.isDigit = false := dropWhile_head_not hd
    have hhead : (rebuildLabels (x :: t) repl).head? = some x := by
      rw [rebuildLabels_head]; rfl
    cases hr : rebuildLabels (x :: t) repl with
    | nil => rw [hr] at hhead; simp at hhead
    | cons y u =>
      rw [hr] at hhead
      simp only [List.head?_cons, Option.some.injEq] at hhead
      subst hhead
      rw [hrw, hd, hr]
      obtain ⟨h1, h2⟩ := takeWhile_digits_append hds hx u
      exact ⟨h1, h2⟩

theorem labelHead_relabel_iff (g : Str → Str) (s : Str) :
    LabelHead (relabelStr g s) ↔ LabelHead s := by
  obtain ⟨h1, h2⟩ := relabelStr_splitDigits g s
  constructor
  · rintro ⟨hh1, hh2⟩
    rw [h1] at hh1
    rw [h2, relabelStr_head] at hh2
    exact ⟨hh1, hh2⟩
  · rintro ⟨hh1, hh2⟩
    exact ⟨by rw [h1]; exact hh1, by rw [h2, relabelStr_head]; exact hh2⟩

theorem labelHead_rebuild_iff (s : Str) (repl : List Str) :
    LabelHead (rebuildLabels s repl) ↔ LabelHead s := by
  obtain ⟨h1, h2⟩ := rebuildLabels_splitDigits s repl
  constructor
  · rintro ⟨hh1, hh2⟩
    rw [h1] at hh1
    rw [h2, rebuildLabels_head] at hh2
    exact ⟨hh1, hh2⟩
  · rintro ⟨hh1, hh2⟩
    exact ⟨by rw [h1]; exact hh1, by rw [h2, rebuildLabels_head]; exact hh2⟩

theorem labelDigits_ne_nil {cs : Str} (h : LabelHead cs) : labelDigits cs ≠ [] := h.1

theorem stripLabels_relabelStr {g : Str → Str} (hg : GoodG g) (s : Str) :
    stripLabels (relabelStr g s) = stripLabels s := by
  suffices H : ∀ n s, s.length = n → stripLabels (relabelStr g s) = stripLabels s from
    H s.length s rfl
  intro n
  induction n using Nat.strong_induction_on with
  | _ n ih =>
    intro s hn
    subst hn
    cases s with
    | nil => rfl
    | cons c cs =>
      by_cases hc : c = ':' ∧ LabelHead cs
      · obtain ⟨hcol, hlh⟩ := hc
        subst hcol
        have hdec := labelHead_decomp hlh
        have hdne : labelDigits cs ≠ [] := labelDigits_ne_nil hlh
        have hdig : AllDigits (labelDigits cs) := labelDigits_allDigits cs
        obtain ⟨hgne, hgdig⟩ := hg _ hdne hdig
        have hmk := labelHead_mk hgne hgdig (relabelStr g (labelRest cs))
        have hlen : (labelRest cs).length < cs.length + 1 :=
          Nat.lt_succ_of_le (labelRest_length_le cs)
        rw [relabelStr_cons, if_pos ⟨rfl, hlh⟩, stripLabels_cons,
          if_pos ⟨rfl, hmk.1⟩, hmk.2.2, stripLabels_cons, if_pos ⟨rfl, hlh⟩,
          ih (labelRest cs).length (by simpa using hlen) (labelRest cs) rfl]
      · rw [relabelStr_cons, if_neg hc]
        have hc2 : ¬ (c = ':' ∧ LabelHead (relabelStr g cs)) := by
          intro ⟨h1, h2⟩
          exact hc ⟨h1, (labelHead_relabel_iff g cs).mp h2⟩
        rw [stripLabels_cons, if_neg hc2, stripLabels_cons, if_neg hc,
          ih cs.length (by simp) cs rfl]

theorem findLabels_relabelStr {g : Str → Str} (hg : GoodG g) (s : Str) :
    findLabels (relabelStr g s) = (findLabels s).map g := by
  suffices H : ∀ n s, s.length = n →
      findLabels (relabelStr g s) = (findLabels s).map g from H s.length s rfl
  intro n
  induction n using Nat.strong_induction_on with
  | _ n ih =>
    intro s hn
    subst hn
    cases s with
    | nil => rfl
    | cons c cs =>
      by_cases hc : c = ':' ∧ LabelHead cs
      · obtain ⟨hcol, hlh⟩ := hc
        subst hcol
        have hdne : labelDigits cs ≠ [] := labelDigits_ne_nil hlh
        have hdig : AllDigits (labelDigits cs) := labelDigits_allDigits cs
        obtain ⟨hgne, hgdig⟩ := hg _ hdne hdig
        have hmk := labelHead_mk hgne hgdig (relabelStr g (labelRest cs))
        have hlen : (labelRest cs).length < cs.length + 1 :=
          Nat.lt_succ_of_le (labelRest_length_le cs)
        rw [relabelStr_cons, if_pos ⟨rfl, hlh⟩, findLabels_cons,
          if_pos ⟨rfl, hmk.1⟩, hmk.2.1, hmk.2.2, findLabels_cons, if_pos ⟨rfl, hlh⟩,
          ih (labelRest cs).length (by simpa using hlen) (labelRest cs) rfl]
        rfl
      · rw [relabelStr_cons, if_neg hc]
        have hc2 : ¬ (c = ':' ∧ LabelHead (relabelStr g cs)) := by
          intro ⟨h1, h2⟩
          exact hc ⟨h1, (labelHead_relabel_iff g cs).mp h2⟩
        rw [findLabels_cons, if_neg hc2, findLabels_cons, if_neg hc,
          ih cs.length (by simp) cs rfl]

theorem stripLabels_rebuildLabels {repl : List Str}
    (hrepl : ∀ r ∈ repl, r ≠ [] ∧ AllDigits r) (s : Str) :
    stripLabels (rebuildLabels s repl) = stripLabels s := by
  suffices H : ∀ n s repl, (∀ r ∈ repl, r ≠ [] ∧ AllDigits r) → s.length = n →
      stripLabels (rebuildLabels s repl) = stripLabels s from H s.length s repl hrepl rfl
  intro n
  induction n using Nat.strong_induction_on with
  | _ n ih =>
    intro s repl hrepl hn
    subst hn
    cases s with
    | nil => rfl
    | cons c cs =>
      by_cases hc : c = ':' ∧ LabelHead cs
      · obtain ⟨hcol, hlh⟩ := hc
        subst hcol
        have hdne : labelDigits cs ≠ [] := labelDigits_ne_nil hlh
        have hdig : AllDigits (labelDigits cs) := labelDigits_allDigits cs
        have hhd : repl.headD (labelDigits cs) ≠ [] ∧
            AllDigits (repl.headD (labelDigits cs)) := by
          cases repl with
          | nil => exact ⟨hdne, hdig⟩
          | cons r rs => exact hrepl r (by simp)
        have hmk := labelHead_mk hhd.1 hhd.2 (rebuildLabels (labelRest cs) repl.tail)
        have hlen : (labelRest cs).length < cs.length + 1 :=
          Nat.lt_succ_of_le (labelRest_length_le cs)
        have htl : ∀ r ∈ repl.tail, r ≠ [] ∧ AllDigits r :=
          fun r hr => hrepl r (List.mem_of_mem_tail hr)
        rw [rebuildLabels_cons, if_pos ⟨rfl, hlh⟩, stripLabels_cons,
          if_pos ⟨rfl, hmk.1⟩, hmk.2.2, stripLabels_cons, if_pos ⟨rfl, hlh⟩,
          ih (labelRest cs).length (by simpa using hlen) (labelRest cs) repl.tail htl rfl]
      · rw [rebuildLabels_cons, if_neg hc]
        have hc2 : ¬ (c = ':' ∧ LabelHead (rebuildLabels cs repl)) := by
          intro ⟨h1, h2⟩
          exact hc ⟨h1, (labelHead_rebuild_iff cs repl).mp h2⟩
        rw [stripLabels_cons, if_neg hc2, stripLabels_cons, if_neg hc,
          ih cs.length (by simp) cs repl hrepl rfl]

theorem findLabels_rebuildLabels {repl : List Str}
    (hrepl : ∀ r ∈ repl, r ≠ [] ∧ AllDigits r) (s : Str) :
    findLabels (rebuildLabels s repl) =
      repl.take (findLabels s).length ++ (findLabels s).drop repl.length := by
  suffices H : ∀ n s repl, (∀ r ∈ repl, r ≠ [] ∧ AllDigits r) → s.length = n →
      findLabels (rebuildLabels s repl) =
        repl.take (findLabels s).length ++ (findLabels s).drop repl.length from
    H s.length s repl hrepl rfl
  intro n
  induction n using Nat.strong_induction_on with
  | _ n ih =>
    intro s repl hrepl hn
    subst hn
    cases s with
    | nil => simp [rebuildLabels_nil, findLabels_nil]
    | cons c cs =>
      by_cases hc : c = ':' ∧ LabelHead cs
      · obtain ⟨hcol, hlh⟩ := hc
        subst hcol
        have hdne : labelDigits cs ≠ [] := labelDigits_ne_nil hlh
        have hdig : AllDigits (labelDigits cs) := labelDigits_allDigits cs
        have hhd : repl.headD (labelDigits cs) ≠ [] ∧
            AllDigits (repl.headD (labelDigits cs)) := by
          cases repl with
          | nil => exact ⟨hdne, hdig⟩
          | cons r rs => exact hrepl r (by simp)
        have hmk := labelHead_mk hhd.1 hhd.2 (rebuildLabels (labelRest cs) repl.tail)
        have hlen : (labelRest cs).length < cs.length + 1 :=
          Nat.lt_succ_of_le (labelRest_length_le cs)
        have htl : ∀ r ∈ repl.tail, r ≠ [] ∧ AllDigits r :=
          fun r hr => hrepl r (List.mem_of_mem_tail hr)
        rw [rebuildLabels_cons, if_pos ⟨rfl, hlh⟩, findLabels_cons,
          if_pos ⟨rfl, hmk.1⟩, hmk.2.1, hmk.2.2, findLabels_cons, if_pos ⟨rfl, hlh⟩,
          ih (labelRest cs).length (by simpa using hlen) (labelRest cs) repl.tail htl rfl]
        cases repl with
        | nil => simp
        | cons r rs => simp
      · rw [rebuildLabels_cons, if_neg hc]
        have hc2 : ¬ (c = ':' ∧ LabelHead (rebuildLabels cs repl)) := by
          intro ⟨h1, h2⟩
          exact hc ⟨h1, (labelHead_rebuild_iff cs repl).mp h2⟩
        rw [findLabels_cons, if_neg hc2, findLabels_cons, if_neg hc,
          ih cs.length (by simp) cs repl hrepl rfl]

theorem rebuildLabels_findLabels (s : Str) : rebuildLabels s (findLabels s) = s := by
  suffices H : ∀ n s, s.length = n → rebuildLabels s (findLabels s) = s from
    H s.length s rfl
  intro n
  induction n using Nat.strong_induction_on with
  | _ n ih =>
    intro s hn
    subst hn
    cases s with
    | nil => rfl
    | cons c cs =>
      by_cases hc : c = ':' ∧ LabelHead cs
      · obtain ⟨hcol, hlh⟩ := hc
        subst hcol
        have hlen : (labelRest cs).length < cs.length + 1 :=
          Nat.lt_succ_of_le (labelRest_length_le cs)
        rw [findLabels_cons, if_pos ⟨rfl, hlh⟩, rebuildLabels_cons, if_pos ⟨rfl, hlh⟩]
        simp only [List.headD_cons, List.tail_cons]
        rw [ih (labelRest cs).length (by simpa using hlen) (labelRest cs) rfl]
        exact congrArg (':' :: ·) (labelHead_decomp hlh).symm
      · rw [findLabels_cons, if_neg hc, rebuildLabels_cons, if_neg hc,
          ih cs.length (by simp) cs rfl]

theorem rebuildLabels_relabelStr {g : Str → Str} (hg : GoodG g) :
    ∀ (s : Str) (repl : List Str), (findLabels s).length ≤ repl.length →
      rebuildLabels (relabelStr g s) repl = rebuildLabels s repl := by
  suffices H : ∀ n s repl, (findLabels s).length ≤ repl.length → s.length = n →
      rebuildLabels (relabelStr g s) repl = rebuildLabels s repl from
    fun s repl h => H s.length s repl h rfl
  intro n
  induction n using Nat.strong_induction_on with
  | _ n ih =>
    intro s repl hlenr hn
    subst hn
    cases s with
    | nil => rfl
    | cons c cs =>
      by_cases hc : c = ':' ∧ LabelHead cs
      · obtain ⟨hcol, hlh⟩ := hc
        subst hcol
        have hdne : labelDigits cs ≠ [] := labelDigits_ne_nil hlh
        have hdig : AllDigits (labelDigits cs) := labelDigits_allDigits cs
        obtain ⟨hgne, hgdig⟩ := hg _ hdne hdig
        have hmk := labelHead_mk hgne hgdig (relabelStr g (labelRest cs))
        have hlen : (labelRest cs).length < cs.length + 1 :=
          Nat.lt_succ_of_le (labelRest_length_le cs)
        rw [findLabels_cons, if_pos ⟨rfl, hlh⟩] at hlenr
        cases repl with
        | nil => simp at hlenr
        | cons r rs =>
          simp only [List.length_cons, Nat.succ_le_succ_iff] at hlenr
          rw [relabelStr_cons, if_pos ⟨rfl, hlh⟩, rebuildLabels_cons,
            if_pos ⟨rfl, hmk.1⟩, hmk.2.2, rebuildLabels_cons, if_pos ⟨rfl, hlh⟩]
          simp only [List.headD_cons, List.tail_cons]
          rw [ih (labelRest cs).length (by simpa using hlen) (labelRest cs) rs hlenr rfl]
      · have hc2 : ¬ (c = ':' ∧ LabelHead (relabelStr g cs)) := by
          intro ⟨h1, h2⟩
          exact hc ⟨h1, (labelHead_relabel_iff g cs).mp h2⟩
        rw [findLabels_cons, if_neg hc] at hlenr
        rw [relabelStr_cons, if_neg hc, rebuildLabels_cons, if_neg hc2,
          rebuildLabels_cons, if_neg hc, ih cs.length (by simp) cs repl hlenr rfl]

theorem firstSplit_cons_of_not_prefix {sep : Str} {c : Char} {t : Str}
    (h : ¬ sep.isPrefixOf (c :: t) = true) :
    firstSplit sep (c :: t) =
      Option.map (fun pq => (c :: pq.1, pq.2)) (firstSplit sep t) := by
  rw [firstSplit, if_neg h]
  cases firstSplit sep t with
  | none => rfl
  | some pq => obtain ⟨p, q⟩ := pq; rfl

theorem isPrefixOf_cons_ne {sep : Str} {h : Char} (hh : sep.head? = some h)
    {d : Char} (hd : d ≠ h) (t : Str) : ¬ sep.isPrefixOf (d :: t) = true := by
  cases sep with
  | nil => simp at hh
  | cons x xs =>
    simp only [List.head?_cons, Option.some.injEq] at hh
    subst hh
    simp [List.isPrefixOf, Ne.symm hd]

theorem firstSplit_cons_ne {sep : Str} {h : Char} (hh : sep.head? = some h)
    {d : Char} (hd : d ≠ h) (t : Str) :
    firstSplit sep (d :: t) =
      Option.map (fun pq => (d :: pq.1, pq.2)) (firstSplit sep t) :=
  firstSplit_cons_of_not_prefix (isPrefixOf_cons_ne hh hd t)

theorem firstSplit_append_ne {sep : Str} {h : Char} (hh : sep.head? = some h)
    {a : Str} (ha : ∀ c ∈ a, c ≠ h) (t : Str) :
    firstSplit sep (a ++ t) =
      Option.map (fun pq => (a ++ pq.1, pq.2)) (firstSplit sep t) := by
  induction a with
  | nil =>
    simp only [List.nil_append]
    cases firstSplit sep t with
    | none => rfl
    | some pq => obtain ⟨p, q⟩ := pq; rfl
  | cons c cs ih =>
    rw [List.cons_append, firstSplit_cons_ne hh (ha c (by simp)) _,
      ih (fun x hx => ha x (by simp [hx]))]
    cases firstSplit sep t with
    | none => rfl
    | some pq => obtain ⟨p, q⟩ := pq; rfl

theorem firstSplit_of_prefix {sep : Str} (hsep : sep ≠ []) {s : Str}
    (h : sep.isPrefixOf s = true) :
    firstSplit sep s = some ([], s.drop sep.length) := by
  cases s with
  | nil =>
    obtain ⟨t, ht⟩ := List.isPrefixOf_iff_prefix.mp h
    cases sep with
    | nil => exact absurd rfl hsep
    | cons x xs => simp at ht
  | cons c cs => rw [firstSplit, if_pos h]

theorem prefixOf_stripLabels_safe {p : Str} (hp : ∀ c ∈ p, SafeChar c) :
    ∀ s : Str, p.isPrefixOf (stripLabels s) = true ↔ p.isPrefixOf s = true := by
  suffices H : ∀ (n : Nat) (s p : Str), (∀ c ∈ p, SafeChar c) → s.length = n →
      (p.isPrefixOf (stripLabels s) = true ↔ p.isPrefixOf s = true) from
    fun s => H s.length s p hp rfl
  intro n
  induction n using Nat.strong_induction_on with
  | _ n ih =>
    intro s p hp hn
    subst hn
    cases p with
    | nil => simp [List.isPrefixOf]
    | cons q p' =>
      obtain ⟨hq1, hq2, hq3⟩ := hp q (by simp)
      cases s with
      | nil => simp [stripLabels_nil]
      | cons c cs =>
        by_cases hc : c = ':' ∧ LabelHead cs
        · obtain ⟨hcol, hlh⟩ := hc
          subst hcol
          rw [stripLabels_cons, if_pos ⟨rfl, hlh⟩]
          apply iff_of_false
          · intro hcon
            simp only [List.isPrefixOf, Bool.and_eq_true, beq_iff_eq] at hcon
            exact hq2 hcon.1
          · intro hcon
            simp only [List.isPrefixOf, Bool.and_eq_true, beq_iff_eq] at hcon
            exact hq1 hcon.1
        · rw [stripLabels_cons, if_neg hc]
          simp only [List.isPrefixOf]
          rw [Bool.and_eq_true, Bool.and_eq_true]
          constructor
          · rintro ⟨h1, h2⟩
            exact ⟨h1, (ih cs.length (by simp) cs p'
              (fun x hx => hp x (by simp [hx])) rfl).mp h2⟩
          · rintro ⟨h1, h2⟩
            exact ⟨h1, (ih cs.length (by simp) cs p'
              (fun x hx => hp x (by simp [hx])) rfl).mpr h2⟩

theorem prefixOf_relabelStr_safe {p : Str} (hp : ∀ c ∈ p, SafeChar c)
    (g : Str → Str) :
    ∀ s : Str, p.isPrefixOf (relabelStr g s) = true ↔ p.isPrefixOf s = true := by
  suffices H : ∀ (n : Nat) (s p : Str), (∀ c ∈ p, SafeChar c) → s.length = n →
      (p.isPrefixOf (relabelStr g s) = true ↔ p.isPrefixOf s = true) from
    fun s => H s.length s p hp rfl
  intro n
  induction n using Nat.strong_induction_on with
  | _ n ih =>
    intro s p hp hn
    subst hn
    cases p with
    | nil => simp [List.isPrefixOf]
    | cons q p' =>
      obtain ⟨hq1, hq2, hq3⟩ := hp q (by simp)
      cases s with
      | nil => simp [relabelStr_nil]
      | cons c cs =>
        by_cases hc : c = ':' ∧ LabelHead cs
        · obtain ⟨hcol, hlh⟩ := hc
          subst hcol
          rw [relabelStr_cons, if_pos ⟨rfl, hlh⟩]
          apply iff_of_false
          · intro hcon
            simp only [List.isPrefixOf, Bool.and_eq_true, beq_iff_eq] at hcon
            exact hq1 hcon.1
          · intro hcon
            simp only [List.isPrefixOf, Bool.and_eq_true, beq_iff_eq] at hcon
            exact hq1 hcon.1
        · rw [relabelStr_cons, if_neg hc]
          simp only [List.isPrefixOf]
          rw [Bool.and_eq_true, Bool.and_eq_true]
          constructor
          · rintro ⟨h1, h2⟩
            exact ⟨h1, (ih cs.length (by simp) cs p'
              (fun x hx => hp x (by simp [hx])) rfl).mp h2⟩
          · rintro ⟨h1, h2⟩
            exact ⟨h1, (ih cs.length (by simp) cs p'
              (fun x hx => hp x (by simp [hx])) rfl).mpr h2⟩

theorem sepSafe_head {sep : Str} (hsep : SepSafe sep) :
    ∃ h, sep.head? = some h ∧ SafeChar h := by
  obtain ⟨h1, h2⟩ := hsep
  cases sep with
  | nil => exact absurd rfl h1
  | cons x xs => exact ⟨x, rfl, h2 x (by simp)⟩

theorem firstSplit_stripLabels {sep : Str} (hsep : SepSafe sep) (s : Str) :
    firstSplit sep (stripLabels s) =
      Option.map (fun pq => (stripLabels pq.1, stripLabels pq.2))
        (firstSplit sep s) := by
  obtain ⟨h, hh, hsafe⟩ := sepSafe_head hsep
  obtain ⟨hne1, hne2, hne3⟩ := hsafe
  suffices H : ∀ (n : Nat) (s : Str), s.length = n →
      firstSplit sep (stripLabels s) =
        Option.map (fun pq => (stripLabels pq.1, stripLabels pq.2))
          (firstSplit sep s) from H s.length s rfl
  intro n
  induction n using Nat.strong_induction_on with
  | _ n ih =>
    intro s hn
    subst hn
    cases s with
    | nil => rfl
    | cons c cs =>
      by_cases hc : c = ':' ∧ LabelHead cs
      · obtain ⟨hcol, hlh⟩ := hc
        subst hcol
        have hdne : labelDigits cs ≠ [] := labelDigits_ne_nil hlh
        have hdig : AllDigits (labelDigits cs) := labelDigits_allDigits cs
        have hdec := labelHead_decomp hlh
        have hlen : (labelRest cs).length < cs.length + 1 :=
          Nat.lt_succ_of_le (labelRest_length_le cs)
        rw [stripLabels_cons, if_pos ⟨rfl, hlh⟩,
          firstSplit_cons_ne hh (Ne.symm hne2) _,
          ih (labelRest cs).length (by simpa using hlen) (labelRest cs) rfl,
          firstSplit_cons_ne hh (Ne.symm hne1) _]
        conv_rhs =>
          rw [hdec, firstSplit_append_ne hh
            (fun x hx => fun hxe => by
              subst hxe
              exact absurd (hdig x hx) (by rw [hne3]; simp)) _,
            firstSplit_cons_ne hh (Ne.symm hne2) _]
        cases hfs : firstSplit sep (labelRest cs) with
        | none => rfl
        | some pq =>
          obtain ⟨pre, post⟩ := pq
          simp only [Option.map_some']
          have hmk := labelHead_mk hdne hdig pre
          rw [stripLabels_cons, if_pos ⟨rfl, hmk.1⟩, hmk.2.2]
      · by_cases hpre : sep.isPrefixOf (c :: cs) = true
        · obtain ⟨t, ht⟩ := List.isPrefixOf_iff_prefix.mp hpre
          have hstrips : stripLabels (c :: cs) = sep ++ stripLabels t := by
            rw [← ht]
            exact stripLabels_nocolon_append (fun x hx => (hsep.2 x hx).1) t
          have hdrop : (c :: cs).drop sep.length = t := by
            rw [← ht, List.drop_left]
          rw [hstrips,
            firstSplit_of_prefix hsep.1
              (List.isPrefixOf_iff_prefix.mpr ⟨stripLabels t, rfl⟩),
            firstSplit_of_prefix hsep.1 hpre, List.drop_left, hdrop]
          simp [stripLabels_nil]
        · have hsc : stripLabels (c :: cs) = c :: stripLabels cs := by
            rw [stripLabels_cons, if_neg hc]
          have hpre2 : ¬ sep.isPrefixOf (c :: stripLabels cs) = true := by
            intro hyes
            cases sep with
            | nil => exact absurd rfl hsep.1
            | cons x xs =>
              simp only [List.isPrefixOf, Bool.and_eq_true, beq_iff_eq] at hyes hpre
              exact hpre ⟨hyes.1, (prefixOf_stripLabels_safe
                (fun y hy => hsep.2 y (by simp [hy])) cs).mp hyes.2⟩
          rw [hsc, firstSplit_cons_of_not_prefix hpre2,
            ih cs.length (by simp) cs rfl,
            firstSplit_cons_of_not_prefix hpre]
          cases hfs : firstSplit sep cs with
          | none => rfl
          | some pq =>
            obtain ⟨pre, post⟩ := pq
            simp only [Option.map_some']
            have hcs : cs = pre ++ sep ++ post := firstSplit_eq hfs
            have hstripc : stripLabels (c :: pre) = c :: stripLabels pre := by
              rw [stripLabels_cons, if_neg]
              intro ⟨h1, h2⟩
              apply hc
              refine ⟨h1, ?_⟩
              cases hsepc : sep with
              | nil => exact absurd hsepc hsep.1
              | cons x xs =>
                rw [hcs, hsepc, List.append_assoc, List.cons_append]
                exact (labelHead_append_safe (hsep.2 x (by rw [hsepc]; simp)) pre
                  (xs ++ post)).mpr h2
            rw [hstripc]

theorem firstSplit_relabelStr {sep : Str} (hsep : SepSafe sep) {g : Str → Str}
    (hg : GoodG g) (s : Str) :
    firstSplit sep (relabelStr g s) =
      Option.map (fun pq => (relabelStr g pq.1, relabelStr g pq.2))
        (firstSplit sep s) := by
  obtain ⟨h, hh, hsafe⟩ := sepSafe_head hsep
  obtain ⟨hne1, hne2, hne3⟩ := hsafe
  suffices H : ∀ (n : Nat) (s : Str), s.length = n →
      firstSplit sep (relabelStr g s) =
        Option.map (fun pq => (relabelStr g pq.1, relabelStr g pq.2))
          (firstSplit sep s) from H s.length s rfl
  intro n
  induction n using Nat.strong_induction_on with
  | _ n ih =>
    intro s hn
    subst hn
    cases s with
    | nil => rfl
    | cons c cs =>
      by_cases hc : c = ':' ∧ LabelHead cs
      · obtain ⟨hcol, hlh⟩ := hc
        subst hcol
        have hdne : labelDigits cs ≠ [] := labelDigits_ne_nil hlh
        have hdig : AllDigits (labelDigits cs) := labelDigits_allDigits cs
        obtain ⟨hgne, hgdig⟩ := hg _ hdne hdig
        have hdec := labelHead_decomp hlh
        have hlen : (labelRest cs).length < cs.length + 1 :=
          Nat.lt_succ_of_le (labelRest_length_le cs)
        rw [relabelStr_cons, if_pos ⟨rfl, hlh⟩,
          firstSplit_cons_ne hh (Ne.symm hne1) _,
          firstSplit_append_ne hh
            (fun x hx => fun hxe => by
              subst hxe
              exact absurd (hgdig x hx) (by rw [hne3]; simp)) _,
          firstSplit_cons_ne hh (Ne.symm hne2) _,
          ih (labelRest cs).length (by simpa using hlen) (labelRest cs) rfl,
          firstSplit_cons_ne hh (Ne.symm hne1) _]
        conv_rhs =>
          rw [hdec, firstSplit_append_ne hh
            (fun x hx => fun hxe => by
              subst hxe
              exact absurd (hdig x hx) (by rw [hne3]; simp)) _,
            firstSplit_cons_ne hh (Ne.symm hne2) _]
        cases hfs : firstSplit sep (labelRest cs) with
        | none => rfl
        | some pq =>
          obtain ⟨pre, post⟩ := pq
          simp only [Option.map_some']
          have hmk := labelHead_mk hdne hdig pre
          rw [relabelStr_cons, if_pos ⟨rfl, hmk.1⟩, hmk.2.1, hmk.2.2]
      · by_cases hpre : sep.isPrefixOf (c :: cs) = true
        · obtain ⟨t, ht⟩ := List.isPrefixOf_iff_prefix.mp hpre
          have hrels : relabelStr g (c :: cs) = sep ++ relabelStr g t := by
            rw [← ht]
            exact relabelStr_nocolon_append g (fun x hx => (hsep.2 x hx).1) t
          have hdrop : (c :: cs).drop sep.length = t := by
            rw [← ht, List.drop_left]
          rw [hrels,
            firstSplit_of_prefix hsep.1
              (List.isPrefixOf_iff_prefix.mpr ⟨relabelStr g t, rfl⟩),
            firstSplit_of_prefix hsep.1 hpre, List.drop_left, hdrop]
          simp [relabelStr_nil]
        · have hsc : relabelStr g (c :: cs) = c :: relabelStr g cs := by
            rw [relabelStr_cons, if_neg hc]
          have hpre2 : ¬ sep.isPrefixOf (c :: relabelStr g cs) = true := by
            intro hyes
            cases sep with
            | nil => exact absurd rfl hsep.1
            | cons x xs =>
              simp only [List.isPrefixOf, Bool.and_eq_true, beq_iff_eq] at hyes hpre
              exact hpre ⟨hyes.1, (prefixOf_relabelStr_safe
                (fun y hy => hsep.2 y (by simp [hy])) g cs).mp hyes.2⟩
          rw [hsc, firstSplit_cons_of_not_prefix hpre2,
            ih cs.length (by simp) cs rfl,
            firstSplit_cons_of_not_prefix hpre]
          cases hfs : firstSplit sep cs with
          | none => rfl
          | some pq =>
            obtain ⟨pre, post⟩ := pq
            simp only [Option.map_some']
            have hcs : cs = pre ++ sep ++ post := firstSplit_eq hfs
            have hrelc : relabelStr g (c :: pre) = c :: relabelStr g pre := by
              rw [relabelStr_cons, if_neg]
              intro ⟨h1, h2⟩
              apply hc
              refine ⟨h1, ?_⟩
              cases hsepc : sep with
              | nil => exact absurd hsepc hsep.1
              | cons x xs =>
                rw [hcs, hsepc, List.append_assoc, List.cons_append]
                exact (labelHead_append_safe (hsep.2 x (by rw [hsepc]; simp)) pre
                  (xs ++ post)).mpr h2
            rw [hrelc]

theorem splitOnStr_stripLabels {sep : Str} (hsep : SepSafe sep) (s : Str) :
    splitOnStr sep (stripLabels s) = (splitOnStr sep s).map stripLabels := by
  suffices H : ∀ (n : Nat) (s : Str), s.length = n →
      splitOnStr sep (stripLabels s) = (splitOnStr sep s).map stripLabels from
    H s.length s rfl
  intro n
  induction n using Nat.strong_induction_on with
  | _ n ih =>
    intro s hn
    subst hn
    rw [splitOnStr_eq hsep.1 (stripLabels s), splitOnStr_eq hsep.1 s,
      firstSplit_stripLabels hsep s]
    cases hfs : firstSplit sep s with
    | none => rfl
    | some pq =>
      obtain ⟨pre, post⟩ := pq
      simp only [Option.map_some']
      rw [ih post.length (firstSplit_post_lt hsep.1 hfs) post rfl]
      rfl

theorem splitOnStr_relabelStr {sep : Str} (hsep : SepSafe sep) {g : Str → Str}
    (hg : GoodG g) (s : Str) :
    splitOnStr sep (relabelStr g s) = (splitOnStr sep s).map (relabelStr g) := by
  suffices H : ∀ (n : Nat) (s : Str), s.length = n →
      splitOnStr sep (relabelStr g s) = (splitOnStr sep s).map (relabelStr g) from
    H s.length s rfl
  intro n
  induction n using Nat.strong_induction_on with
  | _ n ih =>
    intro s hn
    subst hn
    rw [splitOnStr_eq hsep.1 (relabelStr g s), splitOnStr_eq hsep.1 s,
      firstSplit_relabelStr hsep hg s]
    cases hfs : firstSplit sep s with
    | none => rfl
    | some pq =>
      obtain ⟨pre, post⟩ := pq
      simp only [Option.map_some']
      rw [ih post.length (firstSplit_post_lt hsep.1 hfs) post rfl]
      rfl

theorem relabelStr_append_safeChar {g : Str → Str} {c : Char} (hc : SafeChar c) :
    ∀ a b : Str, relabelStr g (a ++ c :: b) = relabelStr g a ++ c :: relabelStr g b := by
  suffices H : ∀ (n : Nat) (a b : Str), a.length = n →
      relabelStr g (a ++ c :: b) = relabelStr g a ++ c :: relabelStr g b from
    fun a b => H a.length a b rfl
  intro n
  induction n using Nat.strong_induction_on with
  | _ n ih =>
    intro a b hn
    subst hn
    cases a with
    | nil =>
      rw [List.nil_append, relabelStr_cons_safe g b hc.1, relabelStr_nil,
        List.nil_append]
    | cons x a' =>
      rw [List.cons_append]
      by_cases hx : x = ':' ∧ LabelHead a'
      · obtain ⟨hcol, hlh⟩ := hx
        subst hcol
        have hlhext : LabelHead (a' ++ c :: b) :=
          (labelHead_append_safe hc a' b).mpr hlh
        obtain ⟨hp1, hp2⟩ := labelParts_append_safe (c := c) b hlh
        have hlen : (labelRest a').length < a'.length + 1 :=
          Nat.lt_succ_of_le (labelRest_length_le a')
        rw [relabelStr_cons, if_pos ⟨rfl, hlhext⟩, hp1, hp2,
          ih (labelRest a').length (by simpa using hlen) (labelRest a') b rfl,
          relabelStr_cons, if_pos ⟨rfl, hlh⟩]
        simp
      · have hx2 : ¬ (x = ':' ∧ LabelHead (a' ++ c :: b)) := by
          intro ⟨h1, h2⟩
          exact hx ⟨h1, (labelHead_append_safe hc a' b).mp h2⟩
        rw [relabelStr_cons, if_neg hx2,
          ih a'.length (by simp) a' b rfl,
          relabelStr_cons, if_neg hx]
        rfl

theorem relabelStr_append_sepSafe {g : Str → Str} {sep : Str} (hsep : SepSafe sep)
    (a b : Str) : relabelStr g (a ++ sep ++ b) = relabelStr g a ++ sep ++ relabelStr g b := by
  cases hs : sep with
  | nil => exact absurd hs hsep.1
  | cons c rest =>
    have hc : SafeChar c := hsep.2 c (by rw [hs]; simp)
    have hrest : ∀ x ∈ rest, x ≠ ':' := fun x hx =>
      (hsep.2 x (by rw [hs]; simp [hx])).1
    rw [List.append_assoc, List.cons_append,
      relabelStr_append_safeChar hc a (rest ++ b),
      relabelStr_nocolon_append g hrest b]
    simp

theorem joinStr_map_relabelStr {g : Str → Str} {sep : Str} (hsep : SepSafe sep) :
    ∀ xs : List Str, joinStr sep (xs.map (relabelStr g)) = relabelStr g (joinStr sep xs)
  | [] => by simp [joinStr, relabelStr_nil]
  | [x] => by simp [joinStr]
  | x :: y :: xs => by
    have ih := joinStr_map_relabelStr (g := g) hsep (y :: xs)
    simp only [List.map_cons, joinStr] at ih ⊢
    rw [ih, ← relabelStr_append_sepSafe hsep]

theorem stripLabels_append_safeChar {c : Char} (hc : SafeChar c) :
    ∀ a b : Str, stripLabels (a ++ c :: b) = stripLabels a ++ c :: stripLabels b := by
  suffices H : ∀ (n : Nat) (a b : Str), a.length = n →
      stripLabels (a ++ c :: b) = stripLabels a ++ c :: stripLabels b from
    fun a b => H a.length a b rfl
  intro n
  induction n using Nat.strong_induction_on with
  | _ n ih =>
    intro a b hn
    subst hn
    cases a with
    | nil =>
      rw [List.nil_append, stripLabels_cons_safe b hc.1, stripLabels_nil,
        List.nil_append]
    | cons x a' =>
      rw [List.cons_append]
      by_cases hx : x = ':' ∧ LabelHead a'
      · obtain ⟨hcol, hlh⟩ := hx
        subst hcol
        have hlhext : LabelHead (a' ++ c :: b) :=
          (labelHead_append_safe hc a' b).mpr hlh
        obtain ⟨hp1, hp2⟩ := labelParts_append_safe (c := c) b hlh
        have hlen : (labelRest a').length < a'.length + 1 :=
          Nat.lt_succ_of_le (labelRest_length_le a')
        rw [stripLabels_cons, if_pos ⟨rfl, hlhext⟩, hp2,
          ih (labelRest a').length (by simpa using hlen) (labelRest a') b rfl,
          stripLabels_cons, if_pos ⟨rfl, hlh⟩]
        rfl
      · have hx2 : ¬ (x = ':' ∧ LabelHead (a' ++ c :: b)) := by
          intro ⟨h1, h2⟩
          exact hx ⟨h1, (labelHead_append_safe hc a' b).mp h2⟩
        rw [stripLabels_cons, if_neg hx2,
          ih a'.length (by simp) a' b rfl,
          stripLabels_cons, if_neg hx]
        rfl

theorem findLabels_append_safeChar {c : Char} (hc : SafeChar c) :
    ∀ a b : Str, findLabels (a ++ c :: b) = findLabels a ++ findLabels b := by
  suffices H : ∀ (n : Nat) (a b : Str), a.length = n →
      findLabels (a ++ c :: b) = findLabels a ++ findLabels b from
    fun a b => H a.length a b rfl
  intro n
  induction n using Nat.strong_induction_on with
  | _ n ih =>
    intro a b hn
    subst hn
    cases a with
    | nil =>
      rw [List.nil_append, findLabels_nil, List.nil_append, findLabels_cons,
        if_neg (by intro hcon; exact hc.1 hcon.1)]
    | cons x a' =>
      rw [List.cons_append]
      by_cases hx : x = ':' ∧ LabelHead a'
      · obtain ⟨hcol, hlh⟩ := hx
        subst hcol
        have hlhext : LabelHead (a' ++ c :: b) :=
          (labelHead_append_safe hc a' b).mpr hlh
        obtain ⟨hp1, hp2⟩ := labelParts_append_safe (c := c) b hlh
        have hlen : (labelRest a').length < a'.length + 1 :=
          Nat.lt_succ_of_le (labelRest_length_le a')
        rw [findLabels_cons, if_pos ⟨rfl, hlhext⟩, hp1, hp2,
          ih (labelRest a').length (by simpa using hlen) (labelRest a') b rfl,
          findLabels_cons, if_pos ⟨rfl, hlh⟩]
        rfl
      · have hx2 : ¬ (x = ':' ∧ LabelHead (a' ++ c :: b)) := by
          intro ⟨h1, h2⟩
          exact hx ⟨h1, (labelHead_append_safe hc a' b).mp h2⟩
        rw [findLabels_cons, if_neg hx2,
          ih a'.length (by simp) a' b rfl,
          findLabels_cons, if_neg hx]

theorem findLabels_nocolon_append {a : Str} (ha : ∀ c ∈ a, c ≠ ':') (t : Str) :
    findLabels (a ++ t) = findLabels t := by
  induction a with
  | nil => rfl
  | cons c cs ih =>
    rw [List.cons_append, findLabels_cons,
      if_neg (by intro hcon; exact ha c (by simp) hcon.1)]
    exact ih (fun x hx => ha x (by simp [hx]))

theorem findLabels_append_sepSafe {sep : Str} (hsep : SepSafe sep) (a b : Str) :
    findLabels (a ++ sep ++ b) = findLabels a ++ findLabels b := by
  cases hs : sep with
  | nil => exact absurd hs hsep.1
  | cons c rest =>
    have hc : SafeChar c := hsep.2 c (by rw [hs]; simp)
    have hrest : ∀ x ∈ rest, x ≠ ':' := fun x hx =>
      (hsep.2 x (by rw [hs]; simp [hx])).1
    rw [List.append_assoc, List.cons_append, findLabels_append_safeChar hc,
      findLabels_nocolon_append hrest b]

theorem findLabels_joinStr {sep : Str} (hsep : SepSafe sep) :
    ∀ xs : List Str, findLabels (joinStr sep xs) = (xs.map findLabels).flatten
  | [] => by simp [joinStr, findLabels_nil]
  | [x] => by simp [joinStr]
  | x :: y :: xs => by
    have ih := findLabels_joinStr hsep (y :: xs)
    simp only [List.map_cons, joinStr, List.flatten_cons] at ih ⊢
    rw [findLabels_append_sepSafe hsep, ih]

theorem findLabels_splitOnStr {sep : Str} (hsep : SepSafe sep) (s : Str) :
    ((splitOnStr sep s).map findLabels).flatten = findLabels s := by
  conv_rhs => rw [← joinStr_splitOnStr hsep.1 s]
  rw [findLabels_joinStr hsep]

instance : IsTotal (Str × Str) pairLe :=
  ⟨fun a b => by unfold pairLe; exact lexLe_total a.1 b.1⟩

instance : IsTrans (Str × Str) pairLe :=
  ⟨fun _ _ _ h1 h2 => lexLe_trans h1 h2⟩

theorem insSortPairs_perm (l : List (Str × Str)) : (insSortPairs l).Perm l :=
  List.perm_insertionSort pairLe l

theorem insSortPairs_sorted (l : List (Str × Str)) :
    List.Sorted pairLe (insSortPairs l) :=
  List.sorted_insertionSort pairLe l

theorem insSortPairs_of_sorted {l : List (Str × Str)}
    (h : List.Sorted pairLe l) : insSortPairs l = l :=
  h.insertionSort_eq

theorem orderedInsert_map_snd (g : Str → Str) (x : Str × Str) :
    ∀ l : List (Str × Str),
      List.orderedInsert pairLe (x.1, g x.2) (l.map (fun p => (p.1, g p.2))) =
        (List.orderedInsert pairLe x l).map (fun p => (p.1, g p.2))
  | [] => rfl
  | y :: ys => by
    simp only [List.map_cons, List.orderedInsert]
    by_cases h : pairLe x y
    · rw [if_pos (show pairLe (x.1, g x.2) (y.1, g y.2) from h), if_pos h]
      rfl
    · rw [if_neg (show ¬ pairLe (x.1, g x.2) (y.1, g y.2) from h), if_neg h,
        List.map_cons, orderedInsert_map_snd g x ys]

theorem insSortPairs_map_snd (g : Str → Str) :
    ∀ l : List (Str × Str),
      insSortPairs (l.map (fun p => (p.1, g p.2))) =
        (insSortPairs l).map (fun p => (p.1, g p.2))
  | [] => rfl
  | x :: xs => by
    simp only [insSortPairs, List.map_cons, List.insertionSort]
    rw [show List.insertionSort pairLe (List.map (fun p => (p.1, g p.2)) xs) =
      insSortPairs (List.map (fun p => (p.1, g p.2)) xs) from rfl,
      insSortPairs_map_snd g xs]
    exact orderedInsert_map_snd g x (insSortPairs xs)

theorem keySorted_perm_nodup_eq :
    ∀ {l₁ l₂ : List (Str × Str)}, List.Sorted pairLe l₁ → List.Sorted pairLe l₂ →
      l₁.Perm l₂ → (l₁.map Prod.fst).Nodup → l₁ = l₂ := by
  intro l₁
  induction l₁ with
  | nil =>
    intro l₂ _ _ hp _
    exact hp.nil_eq
  | cons a t₁ ih =>
    intro l₂ h₁ h₂ hp hnd
    cases l₂ with
    | nil => exact absurd hp.symm.nil_eq (by simp)
    | cons b t₂ =>
      have hb : b ∈ a :: t₁ := hp.symm.subset (by simp)
      have hab : a = b := by
        rcases List.mem_cons.mp hb with h | hbt
        · exact h.symm
        · have ha2 : a ∈ b :: t₂ := hp.subset (by simp)
          rcases List.mem_cons.mp ha2 with h | hat
          · exact h
          · have hle1 : pairLe a b := (List.sorted_cons.mp h₁).1 b hbt
            have hle2 : pairLe b a := (List.sorted_cons.mp h₂).1 a hat
            have hkey : a.1 = b.1 := lexLe_antisymm hle1 hle2
            exfalso
            have : a.1 ∈ t₁.map Prod.fst :=
              List.mem_map.mpr ⟨b, hbt, hkey.symm⟩
            simp only [List.map_cons, List.nodup_cons] at hnd
            exact hnd.1 this
      subst hab
      have hp2 : t₁.Perm t₂ := hp.cons_inv
      simp only [List.map_cons, List.nodup_cons] at hnd
      rw [ih (List.sorted_cons.mp h₁).2 (List.sorted_cons.mp h₂).2 hp2 hnd.2]

theorem denseReplAux_good :
    ∀ (ls : List Str) (dict : List (Str × Str)) (c : Nat),
      (∀ p ∈ dict, p.2 ≠ [] ∧ AllDigits p.2) →
      ∀ r ∈ denseReplAux ls dict c, r ≠ [] ∧ AllDigits r := by
  intro ls
  induction ls with
  | nil => intro dict c _ r hr; simp [denseReplAux] at hr
  | cons l ls ih =>
    intro dict c hdict r hr
    simp only [denseReplAux] at hr
    cases hlk : lookupA dict l with
    | some v =>
      rw [hlk] at hr
      rcases List.mem_cons.mp hr with h | h
      · subst h
        have hmem : ∃ p ∈ dict, p.2 = r := by
          clear hr ih
          induction dict with
          | nil => simp [lookupA] at hlk
          | cons q d ihd =>
            obtain ⟨k, v'⟩ := q
            rw [lookupA] at hlk
            by_cases he : l = k
            · rw [if_pos he] at hlk
              injection hlk with hlk
              exact ⟨(k, v'), by simp, hlk⟩
            · rw [if_neg he] at hlk
              obtain ⟨p, hp1, hp2⟩ := ihd (fun p hp => hdict p (by simp [hp])) hlk
              exact ⟨p, by simp [hp1], hp2⟩
        obtain ⟨p, hp1, hp2⟩ := hmem
        rw [← hp2]
        exact hdict p hp1
      · exact ih dict c hdict r h
    | none =>
      rw [hlk] at hr
      rcases List.mem_cons.mp hr with h | h
      · subst h
        exact ⟨natDigits_ne_nil c, natDigits_allDigits c⟩
      · exact ih ((l, natDigits c) :: dict) (c + 1)
          (by
            intro p hp
            rcases List.mem_cons.mp hp with h2 | h2
            · subst h2
              exact ⟨natDigits_ne_nil c, natDigits_allDigits c⟩
            · exact hdict p h2) r h

theorem denseRepl_good (ls : List Str) :
    ∀ r ∈ denseRepl ls, r ≠ [] ∧ AllDigits r :=
  denseReplAux_good ls [] 1 (by simp)

theorem denseReplAux_length :
    ∀ (ls : List Str) (dict : List (Str × Str)) (c : Nat),
      (denseReplAux ls dict c).length = ls.length := by
  intro ls
  induction ls with
  | nil => intro dict c; rfl
  | cons l ls ih =>
    intro dict c
    simp only [denseReplAux]
    cases lookupA dict l with
    | some v => simp [ih]
    | none => simp [ih]

theorem denseRepl_length (ls : List Str) : (denseRepl ls).length = ls.length :=
  denseReplAux_length ls [] 1

theorem firstOccsAux_congr :
    ∀ (ls : List Str) (s₁ s₂ : List Str), (∀ x, x ∈ s₁ ↔ x ∈ s₂) →
      firstOccsAux s₁ ls = firstOccsAux s₂ ls := by
  intro ls
  induction ls with
  | nil => intro s₁ s₂ _; rfl
  | cons l ls ih =>
    intro s₁ s₂ hmem
    simp only [firstOccsAux]
    by_cases h : l ∈ s₁
    · rw [if_pos h, if_pos ((hmem l).mp h), ih s₁ s₂ hmem]
    · rw [if_neg h, if_neg (fun hc => h ((hmem l).mpr hc)),
        ih (l :: s₁) (l :: s₂) (fun x => by
          simp only [List.mem_cons]
          constructor
          · rintro (h2 | h2)
            · exact Or.inl h2
            · exact Or.inr ((hmem x).mp h2)
          · rintro (h2 | h2)
            · exact Or.inl h2
            · exact Or.inr ((hmem x).mpr h2))]

theorem mem_firstOccsAux :
    ∀ (ls : List Str) (seen : List Str) (x : Str),
      x ∈ firstOccsAux seen ls ↔ x ∈ ls ∧ x ∉ seen := by
  intro ls
  induction ls with
  | nil => intro seen x; simp [firstOccsAux]
  | cons l ls ih =>
    intro seen x
    simp only [firstOccsAux]
    by_cases h : l ∈ seen
    · rw [if_pos h, ih]
      constructor
      · rintro ⟨h1, h2⟩; exact ⟨by simp [h1], h2⟩
      · rintro ⟨h1, h2⟩
        rcases List.mem_cons.mp h1 with h3 | h3
        · subst h3; exact absurd h h2
        · exact ⟨h3, h2⟩
    · rw [if_neg h]
      constructor
      · intro hx
        rcases List.mem_cons.mp hx with h2 | h2
        · subst h2; exact ⟨by simp, h⟩
        · obtain ⟨h3, h4⟩ := (ih (l :: seen) x).mp h2
          exact ⟨by simp [h3], fun hc => h4 (by simp [hc])⟩
      · rintro ⟨h1, h2⟩
        rcases List.mem_cons.mp h1 with h3 | h3
        · simp [h3]
        · by_cases hxl : x = l
          · simp [hxl]
          · exact List.mem_cons_of_mem l
              ((ih (l :: seen) x).mpr ⟨h3, by simp [hxl, h2]⟩)

theorem firstOccsAux_nodup :
    ∀ (ls : List Str) (seen : List Str), (firstOccsAux seen ls).Nodup := by
  intro ls
  induction ls with
  | nil => intro seen; simp [firstOccsAux]
  | cons l ls ih =>
    intro seen
    simp only [firstOccsAux]
    by_cases h : l ∈ seen
    · rw [if_pos h]; exact ih seen
    · rw [if_neg h]
      refine List.nodup_cons.mpr ⟨?_, ih (l :: seen)⟩
      intro hc
      exact ((mem_firstOccsAux ls (l :: seen) l).mp hc).2 (by simp)

theorem firstOccs_nodup (ls : List Str) : (firstOccs ls).Nodup :=
  firstOccsAux_nodup ls []

theorem mem_firstOccs (ls : List Str) (x : Str) : x ∈ firstOccs ls ↔ x ∈ ls := by
  rw [firstOccs, mem_firstOccsAux]
  simp

theorem idxOfStr_append_left {l : Str} {a : List Str} (h : l ∈ a) (b : List Str) :
    idxOfStr l (a ++ b) = idxOfStr l a := by
  induction a with
  | nil => simp at h
  | cons x xs ih =>
    rw [List.cons_append, idxOfStr, idxOfStr]
    by_cases he : l = x
    · rw [if_pos he, if_pos he]
    · have h2 : l ∈ xs := by
        rcases List.mem_cons.mp h with h3 | h3
        · exact absurd h3 he
        · exact h3
      rw [if_neg he, if_neg he, ih h2]

theorem idxOfStr_append_self {l : Str} {a : List Str} (h : l ∉ a) (b : List Str) :
    idxOfStr l (a ++ l :: b) = a.length := by
  induction a with
  | nil => simp [idxOfStr]
  | cons x xs ih =>
    rw [List.cons_append, idxOfStr,
      if_neg (fun hc => h (by simp [hc])), ih (fun hc => h (by simp [hc]))]
    rfl

theorem denseReplAux_charac :
    ∀ (ls sofar : List Str) (dict : List (Str × Str)),
      (∀ l : Str, lookupA dict l =
        if l ∈ sofar then some (natDigits (idxOfStr l sofar + 1)) else none) →
      denseReplAux ls dict (sofar.length + 1) =
        ls.map (fun l =>
          natDigits (idxOfStr l (sofar ++ firstOccsAux sofar ls) + 1)) := by
  intro ls
  induction ls with
  | nil => intro sofar dict _; rfl
  | cons l ls ih =>
    intro sofar dict hdict
    by_cases h : l ∈ sofar
    · have hlk : lookupA dict l = some (natDigits (idxOfStr l sofar + 1)) := by
        rw [hdict l, if_pos h]
      simp only [denseReplAux, hlk, firstOccsAux, if_pos h, List.map_cons]
      rw [idxOfStr_append_left h, ih sofar dict hdict]
    · have hlk : lookupA dict l = none := by
        rw [hdict l, if_neg h]
      simp only [denseReplAux, hlk, firstOccsAux, if_neg h, List.map_cons]
      rw [idxOfStr_append_self h]
      have hrec := ih (sofar ++ [l]) ((l, natDigits (sofar.length + 1)) :: dict)
        (by
          intro x
          rw [lookupA]
          by_cases hx : x = l
          · subst hx
            rw [if_pos rfl, if_pos (by simp)]
            have hidx : idxOfStr x (sofar ++ [x]) = sofar.length :=
              idxOfStr_append_self h []
            rw [hidx]
          · rw [if_neg hx, hdict x]
            by_cases hxs : x ∈ sofar
            · rw [if_pos hxs, if_pos (by simp [hxs]),
                idxOfStr_append_left hxs]
            · rw [if_neg hxs, if_neg (by simp [hxs, hx])])
      rw [List.length_append, List.length_cons, List.length_nil, Nat.zero_add]
        at hrec
      refine congrArg _ ?_
      rw [hrec]
      refine List.map_congr_left (fun x _ => ?_)
      rw [firstOccsAux_congr ls (sofar ++ [l]) (l :: sofar)
        (fun y => by simp [or_comm]), List.append_assoc]
      rfl

theorem denseRepl_charac (ls : List Str) :
    denseRepl ls = ls.map (fun l => natDigits (idxOfStr l (firstOccs ls) + 1)) := by
  have := denseReplAux_charac ls [] [] (by intro l; simp [lookupA])
  simpa [denseRepl, firstOccs] using this

theorem firstOccsAux_map_inj {g : Str → Str} :
    ∀ (ls seen : List Str),
      (∀ a b, (a ∈ ls ∨ a ∈ seen) → (b ∈ ls ∨ b ∈ seen) → g a = g b → a = b) →
      firstOccsAux (seen.map g) (ls.map g) = (firstOccsAux seen ls).map g := by
  intro ls
  induction ls with
  | nil => intro seen _; rfl
  | cons l ls ih =>
    intro seen hinj
    simp only [List.map_cons, firstOccsAux]
    by_cases h : l ∈ seen
    · have htr : ∀ a : Str, (a ∈ ls ∨ a ∈ seen) → (a ∈ l :: ls ∨ a ∈ seen) := by
        intro a ha
        rcases ha with h2 | h2
        · exact Or.inl (by simp [h2])
        · exact Or.inr h2
      rw [if_pos (List.mem_map.mpr ⟨l, h, rfl⟩), if_pos h,
        ih seen (fun a b ha hb => hinj a b (htr a ha) (htr b hb))]
    · have htr : ∀ a : Str, (a ∈ ls ∨ a ∈ l :: seen) → (a ∈ l :: ls ∨ a ∈ seen) := by
        intro a ha
        rcases ha with h2 | h2
        · exact Or.inl (by simp [h2])
        · rcases List.mem_cons.mp h2 with h3 | h3
          · exact Or.inl (by simp [h3])
          · exact Or.inr h3
      rw [if_neg (by
        intro hc
        obtain ⟨x, hx1, hx2⟩ := List.mem_map.mp hc
        have hxl : x = l := hinj x l (Or.inr hx1) (Or.inl (by simp)) hx2
        subst hxl
        exact h hx1), if_neg h,
        show (g l :: seen.map g) = (l :: seen).map g from rfl,
        ih (l :: seen) (fun a b ha hb => hinj a b (htr a ha) (htr b hb))]
      rfl

theorem firstOccs_map_inj {g : Str → Str} (ls : List Str)
    (hinj : ∀ a ∈ ls, ∀ b ∈ ls, g a = g b → a = b) :
    firstOccs (ls.map g) = (firstOccs ls).map g := by
  have := firstOccsAux_map_inj ls []
    (fun a b ha hb h => hinj a (ha.elim id (fun h2 => absurd h2 (List.not_mem_nil a)))
      b (hb.elim id (fun h2 => absurd h2 (List.not_mem_nil b))) h)
  simpa [firstOccs] using this

theorem idxOfStr_map_inj {g : Str → Str} :
    ∀ (F : List Str) (l : Str),
      (∀ a b, (a = l ∨ a ∈ F) → (b = l ∨ b ∈ F) → g a = g b → a = b) →
      idxOfStr (g l) (F.map g) = idxOfStr l F := by
  intro F
  induction F with
  | nil => intro l _; rfl
  | cons x xs ih =>
    intro l hinj
    simp only [List.map_cons, idxOfStr]
    by_cases h : l = x
    · rw [if_pos (by rw [h]), if_pos h]
    · have htr : ∀ a : Str, (a = l ∨ a ∈ xs) → (a = l ∨ a ∈ x :: xs) := by
        intro a ha
        rcases ha with h2 | h2
        · exact Or.inl h2
        · exact Or.inr (by simp [h2])
      rw [if_neg (fun hc => h (hinj l x (Or.inl rfl) (Or.inr (by simp)) hc)),
        if_neg h, ih l (fun a b ha hb hg => hinj a b (htr a ha) (htr b hb) hg)]

theorem idxOfStr_inj_of_nodup :
    ∀ {F : List Str}, F.Nodup → ∀ {a b : Str}, a ∈ F → b ∈ F →
      idxOfStr a F = idxOfStr b F → a = b := by
  intro F
  induction F with
  | nil => intro _ a b ha; simp at ha
  | cons x xs ih =>
    intro hnd a b ha hb h
    simp only [idxOfStr] at h
    by_cases hax : a = x
    · by_cases hbx : b = x
      · rw [hax, hbx]
      · rw [if_pos hax, if_neg hbx] at h
        simp at h
    · by_cases hbx : b = x
      · rw [if_neg hax, if_pos hbx] at h
        simp at h
      · rw [if_neg hax, if_neg hbx] at h
        simp only [List.nodup_cons] at hnd
        have ha2 : a ∈ xs := by
          rcases List.mem_cons.mp ha with h2 | h2
          · exact absurd h2 hax
          · exact h2
        have hb2 : b ∈ xs := by
          rcases List.mem_cons.mp hb with h2 | h2
          · exact absurd h2 hbx
          · exact h2
        exact ih hnd.2 ha2 hb2 (by omega)

theorem map_idxOfStr_nodup :
    ∀ {F : List Str}, F.Nodup → F.map (fun l => idxOfStr l F) = List.range F.length := by
  intro F
  induction F with
  | nil => intro _; rfl
  | cons x xs ih =>
    intro hnd
    simp only [List.nodup_cons] at hnd
    simp only [List.map_cons, idxOfStr, if_pos rfl, List.length_cons,
      List.range_succ_eq_map]
    refine congrArg (0 :: ·) ?_
    have h1 : List.map (fun l => if l = x then 0 else idxOfStr l xs + 1) xs
        = List.map (fun l => idxOfStr l xs + 1) xs :=
      List.map_congr_left (fun l hl => by
        rw [if_neg (show ¬ l = x from fun hc => hnd.1 (by rw [← hc]; exact hl))])
    rw [h1, show (fun l => idxOfStr l xs + 1)
        = (fun n => n + 1) ∘ (fun l => idxOfStr l xs) from rfl,
      ← List.map_map, ih hnd.2]

theorem molSep_safe : SepSafe molSep := by
  refine ⟨by decide, ?_⟩
  intro c hc
  simp only [molSep, List.mem_cons, List.not_mem_nil, or_false] at hc
  rcases hc with h | h | h <;> subst h <;> exact ⟨by decide, by decide, by decide⟩

theorem dotSep_safe : SepSafe dotSep := by
  refine ⟨by decide, ?_⟩
  intro c hc
  simp only [dotSep, List.mem_cons, List.not_mem_nil, or_false] at hc
  subst hc
  exact ⟨by decide, by decide, by decide⟩

theorem gtgtSep_safe : SepSafe gtgtSep := by
  refine ⟨by decide, ?_⟩
  intro c hc
  simp only [gtgtSep, List.mem_cons, List.not_mem_nil, or_false] at hc
  rcases hc with h | h <;> subst h <;> exact ⟨by decide, by decide, by decide⟩

theorem stripLabels_wrap (b : Str) :
    stripLabels (wrapParens b) = wrapParens (stripLabels b) := by
  rw [wrapParens, stripLabels_cons_safe _ (by decide)]
  have h := stripLabels_append_safeChar
    (show SafeChar ')' from ⟨by decide, by decide, by decide⟩) b []
  rw [show b ++ [')'] = b ++ ')' :: [] from rfl, h, stripLabels_nil]
  rfl

theorem dropEnds_wrap (b : Str) : dropEnds (wrapParens b) = b := by
  rw [wrapParens, dropEnds, List.drop_one, List.tail_cons, List.dropLast_concat]

theorem zip_map_self (f : Str → Str) :
    ∀ l : List Str, (l.map f).zip l = l.map (fun x => (f x, x))
  | [] => rfl
  | x :: xs => by simp [zip_map_self f xs]

theorem canonicalize_template_wrap (b : Str) :
    canonicalize_template (wrapParens b) =
      wrapParens (joinStr molSep
        ((insSortPairs ((splitOnStr molSep b).map
          (fun m => (molSortKey m, molCanon m)))).map Prod.snd)) := by
  simp only [canonicalize_template]
  rw [stripLabels_wrap, dropEnds_wrap, dropEnds_wrap,
    splitOnStr_stripLabels molSep_safe, zip_map_self, List.map_map]
  rfl

theorem molParts_of_sorted {m : Str}
    (hm : List.Pairwise strLe (splitOnStr dotSep (stripLabels m))) :
    molSortKey m = stripLabels m ∧ molCanon m = m := by
  have hz : (splitOnStr dotSep (stripLabels m)).zip (splitOnStr dotSep m) =
      (splitOnStr dotSep m).map (fun fr => (stripLabels fr, fr)) := by
    rw [splitOnStr_stripLabels dotSep_safe, zip_map_self]
  have hm2 : List.Pairwise strLe ((splitOnStr dotSep m).map stripLabels) := by
    rw [← splitOnStr_stripLabels dotSep_safe]
    exact hm
  have hsorted : List.Sorted pairLe
      ((splitOnStr dotSep m).map (fun fr => (stripLabels fr, fr))) :=
    List.pairwise_map.mpr ((List.pairwise_map.mp hm2).imp (fun h => h))
  constructor
  · rw [molSortKey, hz, insSortPairs_of_sorted hsorted, List.map_map,
      show ((fun p : Str × Str => p.1) ∘ fun fr => (stripLabels fr, fr))
        = stripLabels from rfl,
      ← splitOnStr_stripLabels dotSep_safe, joinStr_splitOnStr dotSep_safe.1]
  · rw [molCanon, hz, insSortPairs_of_sorted hsorted, List.map_map,
      show ((fun p : Str × Str => p.2) ∘ fun fr => (stripLabels fr, fr))
        = id from rfl,
      List.map_id, joinStr_splitOnStr dotSep_safe.1]

theorem canonicalize_template_fixed {b : Str}
    (hmols : ∀ m ∈ splitOnStr molSep b,
      List.Pairwise strLe (splitOnStr dotSep (stripLabels m)))
    (hsorted : List.Pairwise strLe ((splitOnStr molSep b).map stripLabels)) :
    canonicalize_template (wrapParens b) = wrapParens b := by
  have hmapeq : (splitOnStr molSep b).map (fun m => (molSortKey m, molCanon m))
      = (splitOnStr molSep b).map (fun m => (stripLabels m, m)) :=
    List.map_congr_left (fun m hm => by
      rw [(molParts_of_sorted (hmols m hm)).1, (molParts_of_sorted (hmols m hm)).2])
  have hsorted2 : List.Sorted pairLe
      ((splitOnStr molSep b).map (fun m => (stripLabels m, m))) :=
    List.pairwise_map.mpr ((List.pairwise_map.mp hsorted).imp (fun h => h))
  rw [canonicalize_template_wrap, hmapeq, insSortPairs_of_sorted hsorted2,
    List.map_map,
    show ((fun p : Str × Str => p.2) ∘ fun m => (stripLabels m, m)) = id from rfl,
    List.map_id, joinStr_splitOnStr molSep_safe.1]

/-- C4: for every two-sided transform string already in canonical form — its
text splits at `>>` into exactly a reactant half and a product half, each half
is a parenthesis-wrapped body, within every molecule of each half the
sub-fragments are already sorted by their label-stripped text, the molecules
of each half are already sorted by their label-stripped text, and the
atom-map labels of the whole transform are already the dense first-appearance
renumbering — applying `canonicalize_transform` (per-side canonicalization
followed by atom-map reassignment) again returns the same text:
`canonicalize_transform` is idempotent. -/
theorem canonicalize_transform_idempotent (t r p br bp : Str)
    (hsplit : splitOnStr gtgtSep t = [r, p])
    (hrw : r = wrapParens br) (hpw : p = wrapParens bp)
    (hrmols : ∀ m ∈ splitOnStr molSep br,
      List.Pairwise strLe (splitOnStr dotSep (stripLabels m)))
    (hrsorted : List.Pairwise strLe ((splitOnStr molSep br).map stripLabels))
    (hpmols : ∀ m ∈ splitOnStr molSep bp,
      List.Pairwise strLe (splitOnStr dotSep (stripLabels m)))
    (hpsorted : List.Pairwise strLe ((splitOnStr molSep bp).map stripLabels))
    (hlab : findLabels t = denseRepl (findLabels t)) :
    canonicalize_transform t = t := by
  unfold canonicalize_transform
  rw [hsplit]
  simp only [List.map_cons, List.map_nil]
  rw [hrw, hpw, canonicalize_template_fixed hrmols hrsorted,
    canonicalize_template_fixed hpmols hpsorted, ← hrw, ← hpw,
    show joinStr gtgtSep [r, p] = joinStr gtgtSep (splitOnStr gtgtSep t) by
      rw [hsplit],
    joinStr_splitOnStr gtgtSep_safe.1]
  show rebuildLabels t (denseRepl (findLabels t)) = t
  rw [← hlab, rebuildLabels_findLabels]

/-- Witness for C4: a concrete canonical transform is a fixed point of
`canonicalize_transform`. -/
theorem canonicalize_transform_idempotent_witness :
    canonicalize_transform "([C:1])>>([C:1])".toList = "([C:1])>>([C:1])".toList :=
  canonicalize_transform_idempotent
    "([C:1])>>([C:1])".toList "([C:1])".toList "([C:1])".toList
    "[C:1]".toList "[C:1]".toList
    (by decide) (by decide) (by decide) (by decide) (by decide)
    (by decide) (by decide) (by decide)

theorem findLabels_canonicalize_transform (t : Str) :
    findLabels (canonicalize_transform t) =
      denseRepl (findLabels
        (joinStr gtgtSep ((splitOnStr gtgtSep t).map canonicalize_template))) := by
  unfold canonicalize_transform
  show findLabels (rebuildLabels _ _) = _
  rw [findLabels_rebuildLabels (denseRepl_good _), denseRepl_length,
    List.drop_length, List.append_nil]
  exact List.take_of_length_le (by rw [denseRepl_length])

/-- C5: after both halves are canonicalized, the atom-map labels of the joined
template (reactant side first, as assembled by `canonicalize_transform`) are
reassigned densely: (i) the i-th label occurrence of the output equals
`str(1 + rank)` where rank is the index of the first appearance of the i-th
original label among the distinct original labels in order of first
appearance — i.e. numbers are handed out 1,2,3,… strictly left to right at
each first appearance; (ii) the distinct output labels in order of first
appearance are exactly `"1", "2", …, "K"` for `K` the number of distinct
original labels; (iii) two occurrences receive the same new number exactly
when they carried the same original label; (iv) nothing but the label digits
changes (the label-stripped text is preserved). -/
theorem canonicalize_transform_dense_renumbering (t : Str) :
    let u := joinStr gtgtSep ((splitOnStr gtgtSep t).map canonicalize_template)
    let ls := findLabels u
    let out := findLabels (canonicalize_transform t)
    out = ls.map (fun l => natDigits (idxOfStr l (firstOccs ls) + 1)) ∧
    firstOccs out =
      (List.range (firstOccs ls).length).map (fun n => natDigits (n + 1)) ∧
    (∀ i j, i < ls.length → j < ls.length →
      (ls.get? i = ls.get? j ↔ out.get? i = out.get? j)) ∧
    stripLabels (canonicalize_transform t) = stripLabels u := by
  intro u ls out
  have hout : out = ls.map (fun l => natDigits (idxOfStr l (firstOccs ls) + 1)) := by
    show findLabels (canonicalize_transform t) = _
    rw [findLabels_canonicalize_transform t, denseRepl_charac]
  have hinj : ∀ a ∈ ls, ∀ b ∈ ls,
      natDigits (idxOfStr a (firstOccs ls) + 1) =
        natDigits (idxOfStr b (firstOccs ls) + 1) → a = b := by
    intro a ha b hb h
    have h2 : idxOfStr a (firstOccs ls) = idxOfStr b (firstOccs ls) := by
      have := natDigits_injective h
      omega
    exact idxOfStr_inj_of_nodup (firstOccs_nodup ls)
      ((mem_firstOccs ls a).mpr ha) ((mem_firstOccs ls b).mpr hb) h2
  refine ⟨hout, ?_, ?_, ?_⟩
  · rw [hout, firstOccs_map_inj ls hinj]
    have hFsub : ∀ x ∈ firstOccs ls, x ∈ ls := fun x hx => (mem_firstOccs ls x).mp hx
    rw [List.map_congr_left (fun l hl => by
      rw [show natDigits (idxOfStr l (firstOccs ls) + 1)
          = ((fun n => natDigits (n + 1)) ∘ (fun x => idxOfStr x (firstOccs ls))) l
        from rfl]),
      ← List.map_map, map_idxOfStr_nodup (firstOccs_nodup ls)]
  · intro i j hi hj
    have hgm : ∀ k : Nat, out.get? k =
        (ls.get? k).map (fun l => natDigits (idxOfStr l (firstOccs ls) + 1)) := by
      intro k
      rw [hout]
      simp [List.get?_eq_getElem?]
    rw [hgm i, hgm j]
    constructor
    · intro h; rw [h]
    · intro h
      obtain ⟨a, ha⟩ : ∃ a, ls.get? i = some a := ⟨ls.get ⟨i, hi⟩, List.get?_eq_get hi⟩
      obtain ⟨b, hb⟩ : ∃ b, ls.get? j = some b := ⟨ls.get ⟨j, hj⟩, List.get?_eq_get hj⟩
      rw [ha, hb] at h ⊢
      simp only [Option.map_some', Option.some.injEq] at h
      rw [hinj a (List.get?_mem ha) b (List.get?_mem hb) h]
  · show stripLabels (rebuildLabels u (denseRepl (findLabels u))) = stripLabels u
    exact stripLabels_rebuildLabels (denseRepl_good _) u

theorem zip_map_both (f g : Str → Str) :
    ∀ l : List Str, (l.map f).zip (l.map g) = l.map (fun x => (f x, g x))
  | [] => rfl
  | x :: xs => by simp [zip_map_both f g xs]

theorem molZip_eq (m : Str) :
    (splitOnStr dotSep (stripLabels m)).zip (splitOnStr dotSep m)
      = (splitOnStr dotSep m).map (fun fr => (stripLabels fr, fr)) := by
  rw [splitOnStr_stripLabels dotSep_safe, zip_map_self]

theorem safeChar_rparen : SafeChar ')' := ⟨by decide, by decide, by decide⟩

theorem molSortKey_relabel {g : Str → Str} (hg : GoodG g) (m : Str) :
    molSortKey (relabelStr g m) = molSortKey m ∧
      molCanon (relabelStr g m) = relabelStr g (molCanon m) := by
  have h1 : splitOnStr dotSep (relabelStr g m) =
      (splitOnStr dotSep m).map (relabelStr g) :=
    splitOnStr_relabelStr dotSep_safe hg m
  have h2 : stripLabels (relabelStr g m) = stripLabels m :=
    stripLabels_relabelStr hg m
  have hz : (splitOnStr dotSep (stripLabels (relabelStr g m))).zip
        (splitOnStr dotSep (relabelStr g m))
      = ((splitOnStr dotSep m).map (fun fr => (stripLabels fr, fr))).map
          (fun p => (p.1, relabelStr g p.2)) := by
    rw [h2, h1, splitOnStr_stripLabels dotSep_safe, zip_map_both, List.map_map]
    rfl
  constructor
  · rw [molSortKey, hz, insSortPairs_map_snd, List.map_map, molSortKey, molZip_eq]
    rfl
  · rw [molCanon, hz, insSortPairs_map_snd, List.map_map, molCanon, molZip_eq,
      show ((fun p : Str × Str => p.2) ∘ fun p : Str × Str => (p.1, relabelStr g p.2))
        = relabelStr g ∘ (fun p : Str × Str => p.2) from rfl,
      ← List.map_map, joinStr_map_relabelStr dotSep_safe]

theorem relabelStr_wrap (g : Str → Str) (b : Str) :
    relabelStr g (wrapParens b) = wrapParens (relabelStr g b) := by
  rw [wrapParens, relabelStr_cons_safe g _ (by decide)]
  have h := relabelStr_append_safeChar (g := g) safeChar_rparen b []
  rw [show b ++ [')'] = b ++ ')' :: [] from rfl, h, relabelStr_nil]
  rfl

theorem sorted_map_snd {g : Str → Str} {l : List (Str × Str)}
    (h : List.Sorted pairLe l) :
    List.Sorted pairLe (l.map (fun p => (p.1, g p.2))) :=
  List.pairwise_map.mpr (h.imp (fun hab => hab))

theorem denseRepl_map_inj {g : Str → Str} {ls : List Str}
    (hinj : ∀ a ∈ ls, ∀ b ∈ ls, g a = g b → a = b) :
    denseRepl (ls.map g) = denseRepl ls := by
  rw [denseRepl_charac, denseRepl_charac, firstOccs_map_inj ls hinj, List.map_map]
  refine List.map_congr_left (fun x hx => ?_)
  have hmem : ∀ a : Str, (a = x ∨ a ∈ firstOccs ls) → a ∈ ls := by
    intro a ha
    rcases ha with h2 | h2
    · subst h2; exact hx
    · exact (mem_firstOccs ls a).mp h2
  show natDigits (idxOfStr (g x) ((firstOccs ls).map g) + 1) = _
  rw [idxOfStr_map_inj (firstOccs ls) x
    (fun a b ha hb hgab => hinj a (hmem a ha) b (hmem b hb) hgab)]

theorem reassign_relabelStr {g : Str → Str} (hg : GoodG g) (s : Str)
    (hinj : ∀ a ∈ findLabels s, ∀ b ∈ findLabels s, g a = g b → a = b) :
    reassign_atom_mapping (relabelStr g s) = reassign_atom_mapping s := by
  show rebuildLabels (relabelStr g s) (denseRepl (findLabels (relabelStr g s)))
    = rebuildLabels s (denseRepl (findLabels s))
  rw [findLabels_relabelStr hg, denseRepl_map_inj hinj,
    rebuildLabels_relabelStr hg s _ (by rw [denseRepl_length])]

theorem findLabels_wrap (b : Str) : findLabels (wrapParens b) = findLabels b := by
  rw [wrapParens, findLabels_cons,
    if_neg (by intro hcon; exact absurd hcon.1 (by decide)),
    show b ++ [')'] = b ++ ')' :: [] from rfl,
    findLabels_append_safeChar safeChar_rparen, findLabels_nil, List.append_nil]

theorem forall2_perm_map {α β : Type} (f h : α → β) (R : β → β → Prop) :
    ∀ l : List α, (∀ x ∈ l, R (f x) (h x)) →
      List.Forall₂ R (l.map f) (l.map h)
  | [], _ => List.Forall₂.nil
  | x :: xs, hall => by
    simp only [List.map_cons]
    exact List.Forall₂.cons (hall x (by simp))
      (forall2_perm_map f h R xs (fun y hy => hall y (by simp [hy])))

theorem flatten_perm_of_forall2 :
    ∀ {l₁ l₂ : List (List Str)}, List.Forall₂ List.Perm l₁ l₂ →
      l₁.flatten.Perm l₂.flatten := by
  intro l₁ l₂ h
  induction h with
  | nil => exact List.Perm.refl _
  | cons hx hrest ih =>
    simp only [List.flatten_cons]
    exact hx.append ih

theorem findLabels_molCanon_perm (m : Str) :
    (findLabels (molCanon m)).Perm (findLabels m) := by
  rw [molCanon, molZip_eq, findLabels_joinStr dotSep_safe]
  have hperm : (((insSortPairs ((splitOnStr dotSep m).map
        (fun fr => (stripLabels fr, fr)))).map Prod.snd).map findLabels).Perm
      ((((splitOnStr dotSep m).map (fun fr => (stripLabels fr, fr))).map
        Prod.snd).map findLabels) :=
    (((insSortPairs_perm _).map Prod.snd).map findLabels)
  refine (hperm.flatten).trans ?_
  rw [List.map_map, List.map_map,
    show ((findLabels ∘ Prod.snd) ∘ fun fr => (stripLabels fr, fr))
      = findLabels from rfl,
    findLabels_splitOnStr dotSep_safe]

theorem findLabels_canon_template_perm (b : Str) :
    (findLabels (canonicalize_template (wrapParens b))).Perm (findLabels b) := by
  rw [canonicalize_template_wrap, findLabels_wrap, findLabels_joinStr molSep_safe]
  have h1 : (((insSortPairs ((splitOnStr molSep b).map
        (fun m => (molSortKey m, molCanon m)))).map Prod.snd).map findLabels).Perm
      (((splitOnStr molSep b).map molCanon).map findLabels) := by
    refine List.Perm.map findLabels ?_
    refine ((insSortPairs_perm _).map Prod.snd).trans ?_
    rw [List.map_map]
    exact List.Perm.refl _
  refine (h1.flatten).trans ?_
  have h2 : List.Forall₂ List.Perm
      (((splitOnStr molSep b).map molCanon).map findLabels)
      ((splitOnStr molSep b).map findLabels) := by
    rw [List.map_map]
    exact forall2_perm_map _ _ _ _ (fun m _ => findLabels_molCanon_perm m)
  exact (flatten_perm_of_forall2 h2).trans
    (by rw [findLabels_splitOnStr molSep_safe])

/-- C3 (amended): applying the Template Canonicalizer (per-half two-level sort
followed by dense renumbering) to a permuted-molecule-order, injectively
relabelled copy of a template half yields the same canonical text as for the
original, provided no two molecules of the half share the same label-stripped
intramolecularly-sorted text (no intermolecular sort-key ties).  With ties the
stable sort keeps the input order of the tied molecules and the claim fails,
see the counterexample. -/
theorem canonicalize_template_perm_relabel_invariant
    (g : Str → Str) (t t' bt bt' : Str)
    (hg : GoodG g)
    (ht : t = wrapParens bt) (ht' : t' = wrapParens bt')
    (hperm : (splitOnStr molSep bt').Perm
      ((splitOnStr molSep bt).map (relabelStr g)))
    (hinj : ∀ a ∈ findLabels bt, ∀ b ∈ findLabels bt, g a = g b → a = b)
    (hkeys : ((splitOnStr molSep bt).map molSortKey).Nodup) :
    reassign_atom_mapping (canonicalize_template t') =
      reassign_atom_mapping (canonicalize_template t) := by
  subst ht
  subst ht'
  have hcomp : (splitOnStr molSep bt).map
      ((fun m => (molSortKey m, molCanon m)) ∘ relabelStr g)
      = ((splitOnStr molSep bt).map (fun m => (molSortKey m, molCanon m))).map
          (fun p => (p.1, relabelStr g p.2)) := by
    rw [List.map_map]
    exact List.map_congr_left (fun m _ => by
      show (molSortKey (relabelStr g m), molCanon (relabelStr g m)) = _
      rw [(molSortKey_relabel hg m).1, (molSortKey_relabel hg m).2]
      rfl)
  have hB : ((splitOnStr molSep bt').map (fun m => (molSortKey m, molCanon m))).Perm
      (((splitOnStr molSep bt).map (fun m => (molSortKey m, molCanon m))).map
        (fun p => (p.1, relabelStr g p.2))) := by
    have h0 := hperm.map (fun m => (molSortKey m, molCanon m))
    rw [List.map_map, hcomp] at h0
    exact h0
  have hs1 : List.Sorted pairLe
      (insSortPairs ((splitOnStr molSep bt').map
        (fun m => (molSortKey m, molCanon m)))) := insSortPairs_sorted _
  have hs2 : List.Sorted pairLe
      ((insSortPairs ((splitOnStr molSep bt).map
        (fun m => (molSortKey m, molCanon m)))).map
          (fun p => (p.1, relabelStr g p.2))) :=
    sorted_map_snd (insSortPairs_sorted _)
  have hpermBig : (insSortPairs ((splitOnStr molSep bt').map
        (fun m => (molSortKey m, molCanon m)))).Perm
      ((insSortPairs ((splitOnStr molSep bt).map
        (fun m => (molSortKey m, molCanon m)))).map
          (fun p => (p.1, relabelStr g p.2))) :=
    (insSortPairs_perm _).trans
      (hB.trans (((insSortPairs_perm _).map _).symm))
  have hnd : ((insSortPairs ((splitOnStr molSep bt').map
      (fun m => (molSortKey m, molCanon m)))).map Prod.fst).Nodup := by
    have hchain : ((insSortPairs ((splitOnStr molSep bt').map
        (fun m => (molSortKey m, molCanon m)))).map Prod.fst).Perm
        ((splitOnStr molSep bt).map molSortKey) := by
      refine ((insSortPairs_perm _).map Prod.fst).trans ?_
      rw [List.map_map]
      refine (hperm.map _).trans ?_
      rw [List.map_map]
      have : (splitOnStr molSep bt).map
          ((Prod.fst ∘ fun m => (molSortKey m, molCanon m)) ∘ relabelStr g)
          = (splitOnStr molSep bt).map molSortKey :=
        List.map_congr_left (fun m _ => by
          show molSortKey (relabelStr g m) = molSortKey m
          exact (molSortKey_relabel hg m).1)
      rw [this]
    exact (hchain.nodup_iff).mpr hkeys
  have heq := keySorted_perm_nodup_eq hs1 hs2 hpermBig hnd
  have hcanon : canonicalize_template (wrapParens bt')
      = relabelStr g (canonicalize_template (wrapParens bt)) := by
    rw [canonicalize_template_wrap, canonicalize_template_wrap, heq,
      relabelStr_wrap]
    refine congrArg wrapParens ?_
    rw [List.map_map,
      show (Prod.snd ∘ fun p : Str × Str => (p.1, relabelStr g p.2))
        = relabelStr g ∘ Prod.snd from rfl,
      ← List.map_map, joinStr_map_relabelStr molSep_safe]
  rw [hcanon]
  refine reassign_relabelStr hg _ ?_
  intro a ha b hb hgab
  exact hinj a ((findLabels_canon_template_perm bt).mem_iff.mp ha)
    b ((findLabels_canon_template_perm bt).mem_iff.mp hb) hgab

/-- Counterexample to C3 as stated: the two halves below are
molecule-order-permuted (identity-relabelled) copies of each other, both of
the canonicalizer's required `(...).(...)` shape, yet canonicalization (sort
then dense renumbering) yields different text — the two molecules have equal
label-stripped text `[C][N]`, the stable sort keeps their input order, and the
renumbering then assigns 1,2 to different atoms. -/
theorem canonicalize_template_perm_counterexample :
    "([C][N:7]).([C:5][N])".toList =
        wrapParens "[C][N:7]).([C:5][N]".toList ∧
    "([C:5][N]).([C][N:7])".toList =
        wrapParens "[C:5][N]).([C][N:7]".toList ∧
    (splitOnStr molSep "[C][N:7]).([C:5][N]".toList).Perm
      ((splitOnStr molSep "[C:5][N]).([C][N:7]".toList).map
        (relabelStr (fun d => d))) ∧
    reassign_atom_mapping
        (canonicalize_template "([C][N:7]).([C:5][N])".toList) ≠
      reassign_atom_mapping
        (canonicalize_template "([C:5][N]).([C][N:7])".toList) := by
  refine ⟨by decide, by decide, by decide, by decide⟩

/-- Witness for the amended C3: a half with distinct molecule sort keys,
its molecule order swapped and its labels renumbered by the swap 1↔7, 2↔5. -/
theorem canonicalize_template_perm_relabel_witness :
    reassign_atom_mapping (canonicalize_template "([N:5]).([C:7])".toList) =
      reassign_atom_mapping (canonicalize_template "([C:1]).([N:2])".toList) :=
  canonicalize_template_perm_relabel_invariant
    (fun d => if d = ['1'] then ['7'] else if d = ['2'] then ['5'] else d)
    "([C:1]).([N:2])".toList "([N:5]).([C:7])".toList
    "[C:1]).([N:2]".toList "[N:5]).([C:7]".toList
    (by
      intro ds h1 h2
      show (if ds = ['1'] then ['7'] else if ds = ['2'] then ['5'] else ds) ≠ [] ∧
        AllDigits (if ds = ['1'] then ['7'] else if ds = ['2'] then ['5'] else ds)
      by_cases e1 : ds = ['1']
      · rw [if_pos e1]
        exact ⟨by decide, by decide⟩
      · rw [if_neg e1]
        by_cases e2 : ds = ['2']
        · rw [if_pos e2]
          exact ⟨by decide, by decide⟩
        · rw [if_neg e2]
          exact ⟨h1, h2⟩)
    (by decide) (by decide) (by decide) (by decide) (by decide)

/-- C6 counterexample: in super-general mode an unmapped terminal atom does
not get its literal symbol back.  A terminal chlorine (SMARTS `Cl`, degree 1,
no map label) falls past the super-general mapped branch and past the
default-mode terminal branch into the bracketed construction, yielding
`[#17]`. -/
theorem convert_atom_to_wildcard_sg_counterexample :
    let cl : Atom := ⟨"Cl".toList, 17, 0, 0, 1, 0, false, none, [], []⟩
    cl.degree = 1 ∧ ':' ∉ cl.smarts ∧
      convert_atom_to_wildcard true cl = "[#17]".toList ∧
      convert_atom_to_wildcard true cl ≠ cl.smarts := by
  exact ⟨rfl, by decide, by decide, by decide⟩

/-- C6 (amended): the terminal-atom passthrough holds exactly in default
mode: with the super-general flag off, `convert_atom_to_wildcard` returns a
degree-1 atom's literal SMARTS unchanged. -/
theorem convert_atom_to_wildcard_terminal (sg : Bool) (atom : Atom)
    (hsg : sg = false) (hdeg : atom.degree = 1) :
    convert_atom_to_wildcard sg atom = atom.smarts := by
  subst hsg
  unfold convert_atom_to_wildcard
  rw [if_neg (fun h => absurd h.1 (by decide)), if_pos ⟨rfl, hdeg⟩]

/-- Witness for the amended C6 theorem at a concrete terminal atom. -/
theorem convert_atom_to_wildcard_terminal_witness :
    convert_atom_to_wildcard false ⟨"Cl".toList, 17, 0, 0, 1, 0, false, none, [], []⟩ =
      "Cl".toList :=
  convert_atom_to_wildcard_terminal false
    ⟨"Cl".toList, 17, 0, 0, 1, 0, false, none, [], []⟩ rfl rfl

/-- C2: evaluation of `get_changed_atoms` at an input exercising the
leaving-group loop.  Reactants `[[a1], [a2, a3]]` carry tags 1, 2, 3 and
products `[[a1, p2]]` carry tags 1, 2, with `p2` differing from `a2`.  Tag 3
is a leaving group in a molecule that contributed the changed tag 2, so the
loop appends it — but the atom object appended alongside tag 3 is `a2`, not
`a3`, because the loop indexes the global reactant atom list with the tag's
position inside the current molecule.  The changed-atom list pairs tag `3`
with the atom whose map label is `2`. -/
theorem get_changed_atoms_leaving_group_mismatch :
    let a1 : Atom := ⟨"[CH3:1]".toList, 6, 3, 0, 1, 0, false, some ['1'], [], []⟩
    let a2 : Atom := ⟨"[NH2:2]".toList, 7, 2, 0, 1, 0, false, some ['2'], [], []⟩
    let a3 : Atom := ⟨"[OH:3]".toList, 8, 1, 0, 1, 0, false, some ['3'], [], []⟩
    let p2 : Atom := ⟨"[NH:2]".toList, 7, 1, 0, 1, 0, false, some ['2'], [], []⟩
    let r := get_changed_atoms [[a1], [a2, a3]] [[a1, p2]]
    r.2.1 = [['2'], ['3']] ∧ r.1 = [a2, a2] ∧
      (r.1.getD 1 default).molAtomMapNumber = some ['2'] ∧
      a3.molAtomMapNumber = some ['3'] ∧ a2 ≠ a3 := by
  exact ⟨by decide, by decide, by decide, rfl, by decide⟩

/-- C9: with the super-general flag enabled, `get_special_groups` returns the
empty list for every molecule and matcher — even when the matcher would
report matches — so no functional-group cluster is ever folded into an
expansion; a candidate neighbour not already included is instead appended
singly together with an individual wildcard override. -/
theorem super_general_no_groups (sg : Bool)
    (matcher : Str → Mol → List (List Nat)) (mol : Mol) (hsg : sg = true) :
    get_special_groups sg matcher mol = [] ∧
    ∀ (atoms_to_use : List Nat) (atom_idx : Nat)
        (symbol_replacements : List (Nat × Str)), atom_idx ∉ atoms_to_use →
      expand_atoms_to_use_atom sg mol atoms_to_use atom_idx
          (get_special_groups sg matcher mol) symbol_replacements =
        (atoms_to_use ++ [atom_idx], symbol_replacements ++
          [(atom_idx, convert_atom_to_wildcard sg (getAtomWithIdx mol atom_idx))]) := by
  subst hsg
  have hempty : get_special_groups true matcher mol = [] := by
    unfold get_special_groups
    rw [if_pos rfl]
  refine ⟨hempty, ?_⟩
  intro atoms idx repl hni
  rw [hempty]
  unfold expand_atoms_to_use_atom
  rw [if_neg hni]
  simp only [List.foldl_nil]
  rw [if_neg (fun h => Bool.false_ne_true h)]

/-- Witness for C9: a concrete molecule with a matcher reporting a match on
atom 0, which is nevertheless discarded, and an expansion call that appends
atom 0 singly with its wildcard. -/
theorem super_general_no_groups_witness :
    get_special_groups true (fun _ _ => [[0]])
        [⟨"Cl".toList, 17, 0, 0, 1, 0, false, none, [], []⟩] = [] ∧
    expand_atoms_to_use_atom true
        [⟨"Cl".toList, 17, 0, 0, 1, 0, false, none, [], []⟩] [] 0
        (get_special_groups true (fun _ _ => [[0]])
          [⟨"Cl".toList, 17, 0, 0, 1, 0, false, none, [], []⟩]) [] =
      ([] ++ [0], [] ++ [(0, convert_atom_to_wildcard true
        (getAtomWithIdx [⟨"Cl".toList, 17, 0, 0, 1, 0, false, none, [], []⟩] 0))]) := by
  have h := super_general_no_groups true (fun _ _ => [[0]])
    [⟨"Cl".toList, 17, 0, 0, 1, 0, false, none, [], []⟩] rfl
  exact ⟨h.1, h.2 [] 0 [] (by decide)⟩

theorem process_record_shape (tk : Toolkit) (sg : Bool) (rd : RecordData)
    (i : Nat) (s : ScanState) :
    (process_record tk sg rd i s).2 = [] ∨
    (process_record tk sg rd i s).2 = [.fragCall "reactants".toList 1] ∨
    (process_record tk sg rd i s).2 =
      [.fragCall "reactants".toList 1, .fragCall "products".toList 0] ∨
    (∃ s2, (process_record tk sg rd i s).1 = .ok s2 ∧
      (process_record tk sg rd i s).2 =
        [.fragCall "reactants".toList 1, .fragCall "products".toList 0,
         .writeTable s2.template_dict, .writeCursor rd.tellPos] ∧
      i % 10000 = 0) := by
  unfold process_record
  repeat' split
  all_goals first
    | exact Or.inl rfl
    | exact Or.inr (Or.inl rfl)
    | exact Or.inr (Or.inr (Or.inl rfl))
    | exact Or.inr (Or.inr (Or.inr ⟨_, rfl, rfl, by assumption⟩))

theorem checkPartialMappingAux_ok (products : List (Option Mol))
    (hnone : none ∉ products) (skip : Bool) :
    checkPartialMappingAux skip products = .ok (skip || products.any productPartial) := by
  induction products generalizing skip with
  | nil => simp [checkPartialMappingAux]
  | cons m rest ih =>
    match m with
    | none => exact absurd (List.mem_cons_self _ _) hnone
    | some p =>
      have hrest : none ∉ rest := fun hr => hnone (List.mem_cons_of_mem _ hr)
      rw [checkPartialMappingAux, ih hrest]
      simp [productPartial, List.any_cons, Bool.or_assoc]

/-- C1: a record whose parse/sanitize stage raises is fatal to the scan: the
handler executes `raise(e)` before its `continue`, so the exception escapes,
no counter is incremented, and the following record — which alone is
processed successfully, as the second conjunct shows — is never reached. -/
theorem run_records_parse_error_fatal :
    run_records okToolkit true [badRecord, goodRecord] 0 initState =
      (.error ⟨"ValueError".toList⟩, []) ∧
    (run_records okToolkit true [goodRecord] 0 initState).1 =
      .ok ⟨[("F>>F".toList, 1)], 1, 0, 0, 0, 0, 0⟩ := by
  exact ⟨rfl, rfl⟩

/-- C7: a parsed record some of whose product atoms lack a map label is
skipped before any template derivation: the partially-mapped counter is
incremented, nothing else in the state — the frequency table in particular —
changes, and no fragment extraction is invoked (the event list is empty). -/
theorem process_record_partial_mapping_skip (tk : Toolkit) (sg : Bool)
    (rd : RecordData) (i : Nat) (s : ScanState) (rxn : Reaction) (p : Mol)
    (hp : rd.parsed = .ok rxn)
    (hnone : none ∉ rxn.products)
    (hmem : some p ∈ rxn.products)
    (hunmapped : ∃ a ∈ p, a.molAtomMapNumber = none) :
    process_record tk sg rd i s =
      (.ok { s with total_partialmapped := s.total_partialmapped + 1 }, []) := by
  obtain ⟨a, ha, hanone⟩ := hunmapped
  have hb : productPartial (some p) = true := by
    have hlt : p.countP (fun a => a.molAtomMapNumber.isSome) < p.length := by
      refine Nat.lt_of_le_of_ne (List.countP_le_length _) (fun heq => ?_)
      have hall := List.countP_eq_length.mp heq a ha
      rw [hanone] at hall
      exact Bool.false_ne_true hall
    simp [productPartial, hlt]
  have hany : rxn.products.any productPartial = true :=
    List.any_eq_true.mpr ⟨some p, hmem, hb⟩
  have hchk : checkPartialMapping rxn.products = .ok true := by
    rw [checkPartialMapping, checkPartialMappingAux_ok rxn.products hnone false,
      Bool.false_or, hany]
  unfold process_record
  rw [hp]
  simp only [hchk, if_pos]

/-- Witness for C7 at a concrete record with an unmapped product atom. -/
theorem process_record_partial_mapping_skip_witness :
    process_record okToolkit true partialRecord 3 initState =
      (.ok { initState with
        total_partialmapped := initState.total_partialmapped + 1 }, []) :=
  process_record_partial_mapping_skip okToolkit true partialRecord 3 initState
    ⟨[some [exReacAtom]], [],
      [some [exProdAtom, ⟨"[OH]".toList, 8, 1, 0, 1, 0, false, none, [], []⟩]]⟩
    [exProdAtom, ⟨"[OH]".toList, 8, 1, 0, 1, 0, false, none, [], []⟩]
    rfl (by decide) (by decide)
    ⟨⟨"[OH]".toList, 8, 1, 0, 1, 0, false, none, [], []⟩, by decide, rfl⟩

/-- C8: whenever a record's processing emits a cursor write (a checkpoint),
the frequency-table snapshot carrying that record's effect appears strictly
earlier in the emitted action sequence, so the persisted cursor never
outruns the persisted table. -/
theorem checkpoint_table_before_cursor (tk : Toolkit) (sg : Bool)
    (rd : RecordData) (i : Nat) (s s2 : ScanState) (evs : List Event) (pos : Nat)
    (h : process_record tk sg rd i s = (.ok s2, evs))
    (hcur : Event.writeCursor pos ∈ evs) :
    ∃ k l, k < l ∧ evs.get? k = some (.writeTable s2.template_dict) ∧
      evs.get? l = some (.writeCursor pos) := by
  have he : (process_record tk sg rd i s).2 = evs := by rw [h]
  have he1 : (process_record tk sg rd i s).1 = .ok s2 := by rw [h]
  rcases process_record_shape tk sg rd i s with h1 | h1 | h1 | ⟨s3, h1, h2, _⟩
  · rw [he] at h1
    subst h1
    exact absurd hcur (List.not_mem_nil _)
  · rw [he] at h1
    subst h1
    simp at hcur
  · rw [he] at h1
    subst h1
    simp at hcur
  · rw [he1] at h1
    have hs : s3 = s2 := (Except.ok.inj h1).symm
    rw [he] at h2
    subst h2
    subst hs
    have hpos : pos = rd.tellPos := by
      simp [List.mem_cons] at hcur
      exact hcur
    subst hpos
    exact ⟨2, 3, by decide, rfl, rfl⟩

/-- Witness for C8: the first record (index 0, so `i % 10000 = 0`) triggers a
checkpoint whose table write precedes its cursor write. -/
theorem checkpoint_table_before_cursor_witness :
    ∃ k l, k < l ∧
      (process_record okToolkit true goodRecord 0 initState).2.get? k =
        some (.writeTable
          (⟨[("F>>F".toList, 1)], 1, 0, 0, 0, 0, 0⟩ : ScanState).template_dict) ∧
      (process_record okToolkit true goodRecord 0 initState).2.get? l =
        some (.writeCursor 77) :=
  checkpoint_table_before_cursor okToolkit true goodRecord 0 initState
    ⟨[("F>>F".toList, 1)], 1, 0, 0, 0, 0, 0⟩
    (process_record okToolkit true goodRecord 0 initState).2 77 (by rfl) (by decide)

/-- C10: every fragment-extraction invocation emitted while processing a
record uses the hard-coded radii: radius 1 for the reactant side and radius 0
for the product side; no other category or radius ever occurs. -/
theorem fragment_radius_hardcoded (tk : Toolkit) (sg : Bool) (rd : RecordData)
    (i : Nat) (s : ScanState) (cat : Str) (r : Nat)
    (hmem : Event.fragCall cat r ∈ (process_record tk sg rd i s).2) :
    (cat = "reactants".toList ∧ r = 1) ∨ (cat = "products".toList ∧ r = 0) := by
  rcases process_record_shape tk sg rd i s with h1 | h1 | h1 | ⟨s3, _, h1, _⟩
  · rw [h1] at hmem
    exact absurd hmem (List.not_mem_nil _)
  · rw [h1] at hmem
    have hx := List.mem_singleton.mp hmem
    injection hx with hc hr
    exact Or.inl ⟨hc, hr⟩
  · rw [h1] at hmem
    rcases List.mem_cons.mp hmem with hx | hmem2
    · injection hx with hc hr
      exact Or.inl ⟨hc, hr⟩
    · have hx := List.mem_singleton.mp hmem2
      injection hx with hc hr
      exact Or.inr ⟨hc, hr⟩
  · rw [h1] at hmem
    rcases List.mem_cons.mp hmem with hx | hmem2
    · injection hx with hc hr
      exact Or.inl ⟨hc, hr⟩
    rcases List.mem_cons.mp hmem2 with hx | hmem3
    · injection hx with hc hr
      exact Or.inr ⟨hc, hr⟩
    rcases List.mem_cons.mp hmem3 with hx | hmem4
    · exact Event.noConfusion hx
    rcases List.mem_cons.mp hmem4 with hx | hmem5
    · exact Event.noConfusion hx
    · exact absurd hmem5 (List.not_mem_nil _)

/-- Witness for C10: the reactant-side invocation recorded for a successful
record at index 5 (no checkpoint) carries radius 1. -/
theorem fragment_radius_hardcoded_witness :
    ("reactants".toList = "reactants".toList ∧ (1 : Nat) = 1) ∨
      ("reactants".toList = "products".toList ∧ (1 : Nat) = 0) :=
  fragment_radius_hardcoded okToolkit true goodRecord 5 initState
    "reactants".toList 1 (by decide)
